import Mathlib

/-!
Verification of the `sandl` dependency-aware scheduling and execution engine.

This file shallowly embeds the Rust sources (`src/sandl/src/*.rs`) in Lean 4:

* `HashMap<String, T>` is modelled as an association list `List (String × T)`
  whose key list is duplicate-free (a representation invariant of `HashMap`,
  stated as a hypothesis where a theorem needs it); iteration order of a
  `HashMap`/`HashSet` is unspecified in Rust, and the list order of the model
  is one admissible iteration order.
* `usize` is modelled as `Nat` (with truncated subtraction where the source
  subtracts; the source never underflows on reachable states).
* `f64` payloads of `Value::Number(Number::Float)` are modelled by their raw
  bit pattern as a `Nat`: the engine never performs arithmetic on `Value`s,
  it only stores, clones and structurally matches them.
* Fallible Rust functions returning `Result<T, Error>` become
  `Except Err T`; a reachable Rust `panic!`/`unwrap` failure is modelled by
  the `Outcome.panicked` constructor where a claim depends on it.
* Wall-clock time (`Instant`, `Duration`) is not representable in a pure
  embedding; `SliceResults.duration` and the timing fields of events are
  omitted.  Observer event emission returns `()` in the source and cannot
  influence any result value; it is omitted as well.
-/

namespace Sandl

/-- Numeric payload of a dynamic value (`value.rs`, `enum Number`).
`Float` carries the raw `f64` bit pattern as a `Nat` (see file comment). -/
inductive Number where
  | UnsignedInt (n : Nat)
  | Int (i : Int)
  | Size (n : Nat)
  | Float (bits : Nat)
deriving DecidableEq, Repr

/-- Dynamic self-describing value (`value.rs`, `enum Value`).
`Object` is a `HashMap<String, Value>` modelled as an association list. -/
inductive Value where
  | null
  | bool (b : Bool)
  | number (n : Number)
  | string (s : String)
  | array (elems : List Value)
  | object (fields : List (String × Value))
deriving Repr

/-- Structural decidable equality for `Value` (derives `PartialEq` in the
source; `Float` compares by bit pattern in the model). -/
def Value.beqVal : Value → Value → Bool
  | .null, .null => true
  | .bool a, .bool b => a == b
  | .number a, .number b => a == b
  | .string a, .string b => a == b
  | .array a, .array b => beqList a b
  | .object a, .object b => beqFields a b
  | _, _ => false
where
  beqList : List Value → List Value → Bool
    | [], [] => true
    | x :: xs, y :: ys => beqVal x y && beqList xs ys
    | _, _ => false
  beqFields : List (String × Value) → List (String × Value) → Bool
    | [], [] => true
    | (k, x) :: xs, (l, y) :: ys => k == l && beqVal x y && beqFields xs ys
    | _, _ => false

/-- `Value::is_null` (`value.rs`). -/
def Value.is_null : Value → Bool
  | .null => true
  | _ => false

/-- The engine's "structured object" test: `Value::Object` pattern match used
by `Engine::merge_args` (`engine.rs`). -/
def Value.isObject : Value → Bool
  | .object _ => true
  | _ => false

/-! ### Association-list model of `HashMap` -/

/-- `HashMap::insert`: replace the binding of an existing key (keeping its
position in the model's iteration order), otherwise append a new binding. -/
def mapInsert {κ α : Type _} [DecidableEq κ] (m : List (κ × α)) (k : κ) (v : α) :
    List (κ × α) :=
  match m with
  | [] => [(k, v)]
  | (k', v') :: rest => if k' = k then (k, v) :: rest else (k', v') :: mapInsert rest k v

/-- `HashMap::get`: first binding of the key, if any. -/
def mapLookup {κ α : Type _} [DecidableEq κ] (m : List (κ × α)) (k : κ) : Option α :=
  match m with
  | [] => none
  | (k', v) :: rest => if k' = k then some v else mapLookup rest k

/-- `HashMap::extend`: insert every binding of `entries`, later bindings
overwriting earlier ones (as in `HashMap`). -/
def mapExtend {κ α : Type _} [DecidableEq κ] (acc entries : List (κ × α)) :
    List (κ × α) :=
  entries.foldl (fun m p => mapInsert m p.1 p.2) acc

/-- Collecting an iterator of key/value pairs into a `HashMap`: every pair is
inserted, a later pair with the same key overwriting an earlier one. -/
def collectMap {κ α : Type _} [DecidableEq κ] (entries : List (κ × α)) : List (κ × α) :=
  mapExtend [] entries

/-- `Value::get` (`value.rs`): field lookup on an object, `None` on any
other variant. -/
def Value.get (v : Value) (key : String) : Option Value :=
  match v with
  | .object fields => mapLookup fields key
  | _ => none

/-- Iteration bound for `chunks`: for `n > 0` each step drops at least one
element, so `l.length` steps always suffice and the fuel-exhaustion case is
unreachable (see `chunksGo_join`). -/
def chunksGo {α : Type _} (n : Nat) : Nat → List α → List (List α)
  | _, [] => []
  | 0, _ :: _ => []
  | fuel + 1, x :: xs => (x :: xs).take n :: chunksGo n fuel ((x :: xs).drop n)

/-- `slice::chunks(n)` for `n > 0`: consecutive chunks of size `n`, the last
possibly shorter.  Rust panics on `n = 0`; every caller in the model checks
for `0` before calling. -/
def chunks {α : Type _} (n : Nat) (l : List α) : List (List α) :=
  chunksGo n l.length l

/-- Error taxonomy (`error.rs`, `enum Error`). -/
inductive Err where
  | LayerNotFound (layer : String)
  | LayerAlreadyExists (layer : String)
  | MethodNotFound (method : String) (layer : String)
  | MethodNotBound (method : String) (layer : String)
  | MethodExecutionFailed (slice : String) (layer : String) (method : String)
      (args : Value) (cause : Err)
  | ExecutionError (msg : String)
  | ConfigError (msg : String)
deriving Repr

/-- `Error::with_context` (`error.rs`): wrap an error with invocation
context.  (It always wraps; the no-double-wrap guard lives at the call site
in `Engine::observe_execute_method`.) -/
def Err.with_context (e : Err) (slice layer method : String) (args : Value) : Err :=
  .MethodExecutionFailed slice layer method args e

/-- `Error::root_cause` (`error.rs`): unwrap nested context wrappers to the
innermost error. -/
def Err.root_cause : Err → Err
  | .MethodExecutionFailed _ _ _ _ cause => cause.root_cause
  | other => other

/-- `Error::is_execution_error` (`error.rs`): `matches!(self,
Error::MethodExecutionFailed { .. })`. -/
def Err.is_execution_error : Err → Bool
  | .MethodExecutionFailed _ _ _ _ _ => true
  | _ => false

/-- The `thiserror`-generated `Display` implementation (`error.rs` `#[error]`
attributes).  `MethodExecutionFailed` prints only slice/layer/method. -/
def Err.display : Err → String
  | .LayerNotFound layer => "Layer '" ++ layer ++ "' not found"
  | .LayerAlreadyExists layer => "Layer '" ++ layer ++ "' already exists"
  | .MethodNotFound method layer =>
      "Method '" ++ method ++ "' not found in layer '" ++ layer ++ "'"
  | .MethodNotBound method layer =>
      "Method '" ++ method ++ "' has not been bound in layer '" ++ layer ++ "'"
  | .MethodExecutionFailed slice layer method _ _ =>
      "Method execution failed in slice '" ++ slice ++ "', layer '" ++ layer ++
        "', method '" ++ method ++ "'"
  | .ExecutionError msg => "Execution error: " ++ msg
  | .ConfigError msg => "Configuration error: " ++ msg

/-- `Error::message` (`error.rs`): innermost human-readable text —
recurse through wrappers, return the raw message of an `ExecutionError`,
and the `Display` text of anything else. -/
def Err.message : Err → String
  | .MethodExecutionFailed _ _ _ _ cause => cause.message
  | .ExecutionError msg => msg
  | other => other.display

/-! ### Context, Layer, Slice -/

/-- The per-slice key/value `Context` (`context.rs`).  The engine itself only
ever creates a fresh empty context per slice and hands a shared reference to
every bound function; it never reads or writes it.  User-level interior
mutation is outside the pure embedding, so bound functions here read the
(empty) context they are given. -/
abbrev Ctx := List (String × Value)

/-- `LayerMethodFn` (`layer.rs`): the capability bound to a method. -/
abbrev MethodFn := Value → Ctx → Except Err Value

/-- `Layer` (`layer.rs`). -/
structure Layer where
  name : String
  methods_to_defaults : List (String × Value)
  binds : List (String × MethodFn)

/-- `Layer::get_default_args` (`layer.rs`). -/
def Layer.get_default_args (l : Layer) (method : String) : Option Value :=
  mapLookup l.methods_to_defaults method

/-- `Layer::execute` (`layer.rs`): invoke the bound function with the given
args, `MethodNotBound` if no function is attached. -/
def Layer.execute (l : Layer) (method_name : String) (args : Value) (ctx : Ctx) :
    Except Err Value :=
  match mapLookup l.binds method_name with
  | none => .error (.MethodNotBound method_name l.name)
  | some func => func args ctx

/-- `Layer::execute_with_default` (`layer.rs`): invoke the bound function
with the declared default args, `ConfigError` if there is no default
binding. -/
def Layer.execute_with_default (l : Layer) (method_name : String) (ctx : Ctx) :
    Except Err Value :=
  match mapLookup l.binds method_name with
  | none => .error (.MethodNotBound method_name l.name)
  | some func =>
    match l.get_default_args method_name with
    | none => .error (.ConfigError "method with no defaults called with null")
    | some args => func args ctx

/-- `Slice` (`slice.rs`): layer name → method name → argument value. -/
structure Slice where
  name : String
  methods_per_layer : List (String × List (String × Value))

/-- `Slice::has_layer` (`slice.rs`). -/
def Slice.has_layer (s : Slice) (layer : String) : Bool :=
  (mapLookup s.methods_per_layer layer).isSome

/-- `Slice::get_layer_methods` (`slice.rs`): the method names the slice
invokes on `layer`. -/
def Slice.get_layer_methods (s : Slice) (layer : String) : Except Err (List String) :=
  match mapLookup s.methods_per_layer layer with
  | none => .error (.LayerNotFound layer)
  | some methods => .ok (methods.map Prod.fst)

/-- `Slice::get_method_arg` (`slice.rs`). -/
def Slice.get_method_arg (s : Slice) (layer method : String) : Except Err Value :=
  match mapLookup s.methods_per_layer layer with
  | none => .error (.LayerNotFound layer)
  | some methods =>
    match mapLookup methods method with
    | none => .error (.MethodNotFound method layer)
    | some v => .ok v

/-! ### Engine -/

/-- `EngineConfig` (`config.rs`). -/
structure EngineConfig where
  num_threads : Option Nat
  stack_size : Option Nat
  chunk_size : Nat
  batch_size : Option Nat
deriving DecidableEq, Repr

/-- `EngineConfig::new` / `Default` (`config.rs`). -/
def EngineConfig.new : EngineConfig :=
  { num_threads := none, stack_size := none, chunk_size := 1, batch_size := none }

/-- The engine (`engine.rs`, `struct Engine`).  The observer callback list is
omitted: callbacks return `()` and cannot influence results (see file
comment); run flags are passed to `run_silent` directly. -/
structure Engine where
  slices : List Slice
  layers : List (String × Layer)
  dependencies : List (String × List String)
  init_layer : Option String
  config : EngineConfig

/-- `Engine::new` (`engine.rs`). -/
def Engine.new : Engine :=
  { slices := [], layers := [], dependencies := [], init_layer := none,
    config := EngineConfig.new }

/-- `Engine::get_layer_names` (`engine.rs`): keys of the layer registry, in
the model's iteration order. -/
def Engine.layerNames (E : Engine) : List String :=
  E.layers.map Prod.fst

/-- A computation that can succeed, return an engine `Error`, or abort the
process with a Rust `panic!`/`unwrap` failure. -/
inductive Outcome (α : Type _) where
  | ok (a : α)
  | err (e : Err)
  | panicked (msg : String)
deriving Repr

/-! ### Topological sort (`Engine::topological_sort`, `engine.rs` 31–84)

Kahn's algorithm.  The ready queue is a Rust `Vec` used as a stack
(`push`/`pop` at the end); the model keeps the stack top at the list head.
The initial in-degree/adjacency maps are keyed by the registered layer
names. -/

/-- The inner `for dep in deps` loop of `topological_sort` (lines 42–47):
reject a dependency on an unregistered layer, otherwise record the reverse
edge `dep → layer` in the adjacency map.  The `graph.get_mut(dep).unwrap()`
in the source cannot fail because the adjacency map is keyed by exactly the
registered layer names and `dep` was just checked registered; the model's
`none` branch is likewise unreachable. -/
def addEdges (layer : String) (deps names : List String)
    (graph : List (String × List String)) : Except Err (List (String × List String)) :=
  match deps with
  | [] => .ok graph
  | dep :: rest =>
    if dep ∈ names then
      match mapLookup graph dep with
      | some dependents => addEdges layer rest names (mapInsert graph dep (dependents ++ [layer]))
      | none => addEdges layer rest names graph
    else
      .error (.LayerNotFound dep)

/-- The `for (layer, deps) in &self.dependencies` loop of `topological_sort`
(lines 40–48): set each dependent layer's in-degree and record its edges.
`in_degree.get_mut(layer).unwrap()` (line 41) panics when a layer that
declares dependencies is itself unregistered. -/
def initDegrees : List (String × List String) → List String → List (String × Nat) →
    List (String × List String) →
    Outcome (List (String × Nat) × List (String × List String))
  | [], _, indeg, graph => .ok (indeg, graph)
  | (layer, deps) :: rest, names, indeg, graph =>
    if layer ∈ names then
      match addEdges layer deps names graph with
      | .error e => .err e
      | .ok graph' => initDegrees rest names (mapInsert indeg layer deps.length) graph'
    else
      .panicked "called Option::unwrap on a None value"

/-- The `for neighbor in neighbors` loop (lines 62–68): decrement each
neighbor's in-degree (`usize` subtraction, modelled truncated — the source
never underflows on reachable states), collecting the neighbors that reached
zero, in processing order.  `in_degree.get_mut(neighbor).unwrap()` panics on
a neighbor missing from the in-degree map (unreachable on reachable
states). -/
def decNeighbors : List String → List (String × Nat) →
    Outcome (List (String × Nat) × List String)
  | [], indeg => .ok (indeg, [])
  | nb :: rest, indeg =>
    match mapLookup indeg nb with
    | none => .panicked "called Option::unwrap on a None value"
    | some deg =>
      match decNeighbors rest (mapInsert indeg nb (deg - 1)) with
      | .ok (indeg', pushed) =>
          .ok (indeg', if deg - 1 = 0 then nb :: pushed else pushed)
      | .err e => .err e
      | .panicked m => .panicked m

/-- The `while let Some(node) = queue.pop()` loop (lines 58–70).  `fuel`
bounds the iteration count; `topological_sort` passes one more than the
number of registered layers, which is never exhausted (each iteration
appends one element to the duplicate-free `result`).  Newly readied
neighbors are pushed onto the stack in order, so `pushed.reverse` puts the
last push on top, as `Vec::push`/`Vec::pop` do. -/
def kahnLoop (graph : List (String × List String)) :
    Nat → List (String × Nat) → List String → List String → Outcome (List String)
  | 0, _, _, result => .ok result
  | _ + 1, _, [], result => .ok result
  | fuel + 1, indeg, node :: rest, result =>
    match mapLookup graph node with
    | none => kahnLoop graph fuel indeg rest (result ++ [node])
    | some neighbors =>
      match decNeighbors neighbors indeg with
      | .ok (indeg', pushed) =>
          kahnLoop graph fuel indeg' (pushed.reverse ++ rest) (result ++ [node])
      | .err e => .err e
      | .panicked m => .panicked m

/-- `Engine::topological_sort` (`engine.rs` 31–84). -/
def Engine.topological_sort (E : Engine) : Outcome (List String) :=
  let names := E.layerNames
  match initDegrees E.dependencies names (names.map (fun n => (n, 0)))
      (names.map (fun n => (n, ([] : List String)))) with
  | .panicked m => .panicked m
  | .err e => .err e
  | .ok (indeg, graph) =>
    let queue := (indeg.filter (fun p => p.2 = 0)).map Prod.fst
    match kahnLoop graph (names.length + 1) indeg queue [] with
    | .err e => .err e
    | .panicked m => .panicked m
    | .ok result =>
      if result.length ≠ names.length then
        .err (.ConfigError "Circular dependency detected in layers")
      else
        match E.init_layer with
        | some init_name => .ok (init_name :: result.filter (fun n => n ≠ init_name))
        | none => .ok result

/-! ### Wave computation (`Engine::compute_method_waves`, `engine.rs` 86–137) -/

/-- The per-layer eligibility test (lines 103–106): every recorded
dependency already completed; a layer without a dependency entry is
immediately eligible. -/
def Engine.depsSatisfied (E : Engine) (completed : List String) (layer : String) : Bool :=
  match mapLookup E.dependencies layer with
  | some deps => deps.all (fun dep => completed.contains dep)
  | none => true

/-- One iteration of the wave scan (lines 100–115): one schedule entry per
method the slice invokes on each eligible remaining layer, in scan order. -/
def Engine.waveOf (E : Engine) (slice : Slice) (remaining completed : List String) :
    List (String × String) :=
  remaining.foldl (fun acc layer_name =>
    if E.depsSatisfied completed layer_name then
      match slice.get_layer_methods layer_name with
      | .ok methods => acc ++ methods.map (fun m => (layer_name, m))
      | .error _ => acc
    else acc) []

/-- The `while !remaining_layers.is_empty()` loop (lines 99–134).  `fuel`
bounds the iteration count; every non-final iteration produces a non-empty
wave and therefore removes at least one remaining layer, so the
`remaining.length + 1` fuel passed by `compute_method_waves` is never
exhausted (`Engine.wavesLoop_fuel_irrelevant` below makes this precise);
the fuel-exhaustion branch is unreachable. -/
def Engine.wavesLoop (E : Engine) (slice : Slice) :
    Nat → List String → List String → Except Err (List (List (String × String)))
  | 0, remaining, _ =>
    if remaining = [] then .ok []
    else .error (.ConfigError "Unable to compute method waves")
  | fuel + 1, remaining, completed =>
    if remaining = [] then .ok []
    else
      let wave := E.waveOf slice remaining completed
      if wave = [] then .error (.ConfigError "Unable to compute method waves")
      else
        let wave_layers := wave.map Prod.fst
        match E.wavesLoop slice fuel (remaining.filter (fun l => !(wave_layers.contains l)))
            (completed ++ wave_layers) with
        | .ok rest => .ok (wave :: rest)
        | .error e => .error e

/-- `Engine::compute_method_waves` (`engine.rs` 86–137): restrict the global
ordering to the slice's participating layers and run the wave scan. -/
def Engine.compute_method_waves (E : Engine) (slice : Slice)
    (execution_order : List String) : Except Err (List (List (String × String))) :=
  let remaining := execution_order.filter (fun l => slice.has_layer l)
  E.wavesLoop slice (remaining.length + 1) remaining []

/-! ### Executor (`engine.rs` 139–284) -/

/-- `Engine::merge_args` (`engine.rs` 272–284): shallow key-by-key merge of
two objects (override wins), pass a null override through to the defaults,
and use any other override verbatim. -/
def Engine.merge_args (defaults overrides : Value) : Value :=
  match defaults, overrides with
  | .object def_map, .object over_map =>
      .object (over_map.foldl (fun merged p => mapInsert merged p.1 p.2) def_map)
  | _, .null => defaults
  | _, _ => overrides

/-- `Engine::execute_method` (`engine.rs` 245–270): resolve layer, slice
argument and defaults, then invoke the bound function. -/
def Engine.execute_method (E : Engine) (slice : Slice)
    (layer_name method_name : String) (ctx : Ctx) : Except Err Value :=
  match mapLookup E.layers layer_name with
  | none => .error (.LayerNotFound layer_name)
  | some layer =>
    match slice.get_method_arg layer_name method_name with
    | .error e => .error e
    | .ok slice_args =>
      if slice_args.is_null then
        layer.execute_with_default method_name ctx
      else
        let merged_args :=
          match layer.get_default_args method_name with
          | some default_args => Engine.merge_args default_args slice_args
          | none => slice_args
        layer.execute method_name merged_args ctx

/-- The `map_err` closure of `Engine::observe_execute_method` (`engine.rs`
211–222): attach invocation context to a failure unless it is already a
`MethodExecutionFailed` (no double-wrapping); the recorded argument is the
slice's raw argument, `Value::Null` when absent (`unwrap_or(&Value::Null)`). -/
def Engine.attachInvocationContext (slice : Slice) (layer_name method_name : String)
    (e : Err) : Err :=
  let args :=
    match slice.get_method_arg layer_name method_name with
    | .ok v => v
    | .error _ => Value.null
  if e.is_execution_error then e
  else e.with_context slice.name layer_name method_name args

/-- `Engine::observe_execute_method` (`engine.rs` 193–243), minus timing and
event emission (pure side channels, see file comment): run the method and
context-wrap any failure. -/
def Engine.observe_execute_method (E : Engine) (slice : Slice)
    (layer_name method_name : String) (ctx : Ctx) : Except Err Value :=
  match E.execute_method slice layer_name method_name ctx with
  | .ok v => .ok v
  | .error e => .error (Engine.attachInvocationContext slice layer_name method_name e)

/-- `SliceResults` (`results.rs`): one result or error per (layer, method)
pair.  The wall-clock `duration` field is omitted (see file comment). -/
structure SliceResults where
  method_results : List ((String × String) × Except Err Value)
deriving Repr

/-- `SliceResults::add_result` (`results.rs`). -/
def SliceResults.add_result (r : SliceResults) (layer method : String)
    (res : Except Err Value) : SliceResults :=
  ⟨mapInsert r.method_results (layer, method) res⟩

/-- `Engine::execute_slice` (`engine.rs` 139–191): compute the slice's
waves, then process waves in order, recording every pair's independent
outcome.  Within a wave the source dispatches pairs in parallel
(`par_iter`) and collects their outcomes in order; each bound function
receives the same fresh per-slice context, so the parallel map is modelled
as a list map.  Timing/events are omitted (see file comment). -/
def Engine.execute_slice (E : Engine) (slice : Slice) (execution_order : List String)
    (use_observer : Bool) : Except Err SliceResults :=
  match E.compute_method_waves slice execution_order with
  | .error e => .error e
  | .ok waves =>
    let ctx : Ctx := []
    .ok (waves.foldl (fun results wave =>
      (wave.map (fun p =>
        (p, if use_observer then E.observe_execute_method slice p.1 p.2 ctx
            else E.execute_method slice p.1 p.2 ctx))).foldl
        (fun rs q => rs.add_result q.1.1 q.1.2 q.2) results) ⟨[]⟩)

/-- `RunResults` (`results.rs`): slice name → result-or-error of the whole
slice, as a `HashMap` model. -/
abbrev RunResults := List (String × Except Err SliceResults)

/-- `Engine::execute_batch_silent` (`engine.rs` 364–410): execute every
slice of the batch (optionally grouped into chunks of `chunk_size`, which
only changes dispatch granularity) and collect the named outcomes into a
map.  The worker pool (`pool.install`) affects scheduling only and is not
modelled. -/
def Engine.execute_batch_silent (E : Engine) (slices : List Slice)
    (execution_order : List String) (use_observer : Bool) : RunResults :=
  let f := fun (s : Slice) => (s.name, E.execute_slice s execution_order use_observer)
  collectMap (if E.config.chunk_size > 1 then
      (chunks E.config.chunk_size slices).foldr (fun c acc => c.map f ++ acc) []
    else slices.map f)

/-- `Engine::run_silent` (`engine.rs` 294–319): a topological-sort failure
panics the process (`panic!("Engine misconfigured: {}", e)`); otherwise the
slice list is executed in one go, or in sequential batches of
`batch_size` (`slice::chunks` panics on a zero batch size) whose results
are merged by `HashMap::extend`. -/
def Engine.run_silent (E : Engine) (use_observer : Bool) : Outcome RunResults :=
  match E.topological_sort with
  | .err e => .panicked ("Engine misconfigured: " ++ e.display)
  | .panicked m => .panicked m
  | .ok execution_order =>
    match E.config.batch_size with
    | some batch_size =>
      if batch_size = 0 then .panicked "chunk size must be non-zero"
      else
        .ok ((chunks batch_size E.slices).foldl
          (fun all_results batch =>
            mapExtend all_results (E.execute_batch_silent batch execution_order use_observer))
          [])
    | none => .ok (E.execute_batch_silent E.slices execution_order use_observer)

/-! ### Registration and the builder (`engine.rs` 487–531, `builder.rs` 176–292) -/

/-- `Engine::register_layer` (`engine.rs` 508–515): reject duplicate layer
names. -/
def Engine.register_layer (E : Engine) (layer : Layer) : Except Err Engine :=
  if (mapLookup E.layers layer.name).isSome then
    .error (.LayerAlreadyExists layer.name)
  else
    .ok { E with layers := E.layers ++ [(layer.name, layer)] }

/-- `Engine::set_init_layer` (`engine.rs` 487–494): the initializer must be
registered. -/
def Engine.set_init_layer (E : Engine) (layer_name : String) : Except Err Engine :=
  if (mapLookup E.layers layer_name).isSome then
    .ok { E with init_layer := some layer_name }
  else
    .error (.LayerNotFound layer_name)

/-- `Engine::add_dependency` (`engine.rs` 496–502): append to the layer's
dependency list, creating it if missing.  The source returns `Result` but
never fails. -/
def Engine.add_dependency (E : Engine) (layer depends_on : String) : Engine :=
  { E with dependencies :=
      match mapLookup E.dependencies layer with
      | some deps => mapInsert E.dependencies layer (deps ++ [depends_on])
      | none => E.dependencies ++ [(layer, [depends_on])] }

/-- `Engine::register_slice` (`engine.rs` 504–506). -/
def Engine.register_slice (E : Engine) (slice : Slice) : Engine :=
  { E with slices := E.slices ++ [slice] }

/-- `EngineBuilder` (`builder.rs` 176–183); the observer is omitted (see
file comment). -/
structure EngineBuilder where
  layers : List Layer
  slices : List Slice
  dependencies : List (String × List String)
  init_layer : Option String
  config : EngineConfig

/-- The `for layer in self.layers` loop of `EngineBuilder::build`. -/
def registerLayers : List Layer → Engine → Except Err Engine
  | [], E => .ok E
  | layer :: rest, E =>
    match E.register_layer layer with
    | .error e => .error e
    | .ok E' => registerLayers rest E'

/-- The `for (layer, deps) in self.dependencies` loop of
`EngineBuilder::build`. -/
def addDepsList (E : Engine) (pairs : List (String × List String)) : Engine :=
  pairs.foldl (fun acc p => p.2.foldl (fun acc2 dep => acc2.add_dependency p.1 dep) acc) E

/-- `EngineBuilder::build` (`builder.rs` 260–291): register layers (duplicate
names fail), designate the initializer (unregistered fails) and realize its
implicit edges, then add the explicit dependencies and the slices.  Note
that `build` never runs the topological sort: dependency references to
unregistered layers and cycles are not detected here. -/
def EngineBuilder.build (b : EngineBuilder) : Except Err Engine :=
  match registerLayers b.layers { Engine.new with config := b.config } with
  | .error e => .error e
  | .ok E0 =>
    let withInit : Except Err Engine :=
      match b.init_layer with
      | none => .ok E0
      | some init_name =>
        match E0.set_init_layer init_name with
        | .error e => .error e
        | .ok E1 =>
          .ok (E1.layerNames.foldl (fun acc layer_name =>
            if layer_name ≠ init_name then acc.add_dependency layer_name init_name
            else acc) E1)
    match withInit with
    | .error e => .error e
    | .ok E2 =>
      .ok { addDepsList E2 b.dependencies with
              slices := E2.slices ++ b.slices }

/-! ### Result aggregation (`results.rs`) -/

/-- `RunResultsExt::total_slices` (`results.rs`): the number of entries of
the result map. -/
def RunResults.total_slices (r : RunResults) : Nat :=
  r.length

/-- `RunResultsExt::successful_slices` (`results.rs`). -/
def RunResults.successful_slices (r : RunResults) : Nat :=
  (r.filter (fun p => match p.2 with | .ok _ => true | .error _ => false)).length

/-- The recorded dependency list of a layer: the edge "layer depends on
each element of `depsOf layer`" (empty when the layer has no entry), as
read by both the topological sort and the wave computation. -/
def Engine.depsOf (E : Engine) (layer : String) : List String :=
  (mapLookup E.dependencies layer).getD []

/-- `b` occurs strictly before `a` in the list. -/
def ListBefore (l : List String) (b a : String) : Prop :=
  ∃ i j : Nat, i < j ∧ l[i]? = some b ∧ l[j]? = some a

/-! ### Concrete instances used by the verification -/

/-- A bound function that returns its resolved argument unchanged, exposing
the engine's argument resolution in the invocation result. -/
def idMethodFn : MethodFn := fun args _ => .ok args

/-- A layer `L` with one method `m`, default argument `{a:1, b:2}`, bound to
`idMethodFn`. -/
def mergeDemoLayer : Layer :=
  ⟨"L", [("m", .object [("a", .number (.Int 1)), ("b", .number (.Int 2))])],
   [("m", idMethodFn)]⟩

/-- An engine registering only `mergeDemoLayer`. -/
def mergeDemoEngine : Engine :=
  { Engine.new with layers := [("L", mergeDemoLayer)] }

/-- A slice invoking `L.m` with the given argument. -/
def mergeDemoSlice (arg : Value) : Slice :=
  ⟨"s", [("L", [("m", arg)])]⟩

/-- A bound function that always fails with an `ExecutionError`. -/
def boomFn : MethodFn := fun _ _ => .error (.ExecutionError "boom")

/-- A bound function that always succeeds with the number `3`. -/
def okFn3 : MethodFn := fun _ _ => .ok (.number (.Int 3))

/-- One layer `L` with methods `m1` bound to `f1` and `m2` bound to `f2`
(null defaults), and one registered slice `s` invoking both with the
null-signal. -/
def failDemoEngine (f1 f2 : MethodFn) : Engine :=
  { Engine.new with
    layers := [("L", ⟨"L", [("m1", Value.null), ("m2", Value.null)],
                     [("m1", f1), ("m2", f2)]⟩)],
    slices := [⟨"s", [("L", [("m1", Value.null), ("m2", Value.null)])]⟩] }

/-- Two registered layers `X` and `Z` where `X` depends on `Z`. -/
def waveDemoEngine : Engine :=
  { Engine.new with
    layers := [("X", ⟨"X", [("m", Value.null)], []⟩),
               ("Z", ⟨"Z", [("m", Value.null)], []⟩)],
    dependencies := [("X", ["Z"])] }

/-- A slice invoking only `X.m` (and not `Z`). -/
def waveDemoSlice : Slice := ⟨"s", [("X", [("m", Value.null)])]⟩

/-- A linear dependency chain: `C` depends on `B`, `B` depends on `A`. -/
def chainDemoEngine : Engine :=
  { Engine.new with
    layers := [("A", ⟨"A", [("ma", Value.null)], []⟩),
               ("B", ⟨"B", [("mb", Value.null)], []⟩),
               ("C", ⟨"C", [("mc", Value.null)], []⟩)],
    dependencies := [("B", ["A"]), ("C", ["B"])] }

/-- A slice invoking one method on each of the three chain layers. -/
def chainDemoSlice : Slice :=
  ⟨"s", [("A", [("ma", Value.null)]), ("B", [("mb", Value.null)]),
         ("C", [("mc", Value.null)])]⟩

/-- `failDemoEngine boomFn okFn3` with two distinct slices registered under
the same name `"s"`. -/
def dupSliceDemoEngine : Engine :=
  { failDemoEngine boomFn okFn3 with
    slices := [⟨"s", [("L", [("m2", Value.null)])]⟩,
               ⟨"s", [("L", [("m1", Value.null)])]⟩] }

/-- The run result of `dupSliceDemoEngine`: a single entry, holding the
later-registered slice's outcome. -/
def dupDemoResults : RunResults :=
  [("s", .ok ⟨[(("L", "m1"), .error (.ExecutionError "boom"))]⟩)]

/-- Per-entry transformation relating an observed method invocation to a
plain one: successes unchanged, failures context-wrapped exactly as
`observe_execute_method` does. -/
def wrapMethodResult (slice : Slice) (key : String × String) (r : Except Err Value) :
    Except Err Value :=
  match r with
  | .ok v => .ok v
  | .error e => .error (Engine.attachInvocationContext slice key.1 key.2 e)

/-- The same transformation on a whole slice outcome. -/
def sliceResultsWithContext (slice : Slice) (r : Except Err SliceResults) :
    Except Err SliceResults :=
  match r with
  | .error e => .error e
  | .ok res => .ok ⟨res.method_results.map (fun q =>
      (q.1, wrapMethodResult slice q.1 q.2))⟩

/-- A three-layer engine with a designated initializer whose implicit
edges are realized, exactly as `EngineBuilder::build` would produce them:
`A` depends on `init` and `B`, `B` depends on `init`. -/
def c1demoEngine : Engine :=
  { Engine.new with
    layers := [("init", ⟨"init", [], []⟩), ("A", ⟨"A", [], []⟩),
               ("B", ⟨"B", [], []⟩)],
    dependencies := [("A", ["init", "B"]), ("B", ["init"])],
    init_layer := some "init" }

/-- The order the model's topological sort returns for `c1demoEngine`. -/
def c1demoOrder : List String := ["init", "B", "A"]

/-- A two-layer dependency cycle, registered directly on an engine. -/
def cycleDemoEngine : Engine :=
  { Engine.new with
    layers := [("X", ⟨"X", [], []⟩), ("Y", ⟨"Y", [], []⟩)],
    dependencies := [("X", ["Y"]), ("Y", ["X"])] }

/-- A builder declaring the same two-layer cycle; its `build` succeeds and
produces `cycleDemoEngine`. -/
def cycleDemoBuilder : EngineBuilder :=
  { layers := [⟨"X", [], []⟩, ⟨"Y", [], []⟩],
    slices := [],
    dependencies := [("X", ["Y"]), ("Y", ["X"])],
    init_layer := none,
    config := EngineConfig.new }

/-- A builder registering two layers with the same name. -/
def dupLayerDemoBuilder : EngineBuilder :=
  { layers := [⟨"L", [], []⟩, ⟨"L", [], []⟩],
    slices := [], dependencies := [], init_layer := none,
    config := EngineConfig.new }

/-- A builder designating an unregistered initializer layer. -/
def missingInitDemoBuilder : EngineBuilder :=
  { layers := [⟨"L", [], []⟩],
    slices := [], dependencies := [], init_layer := some "init",
    config := EngineConfig.new }

/-- A builder whose only dependency references an unregistered target
layer. -/
def unregDepDemoBuilder : EngineBuilder :=
  { layers := [⟨"X", [], []⟩],
    slices := [], dependencies := [("X", ["ghost"])], init_layer := none,
    config := EngineConfig.new }

/-- The engine `unregDepDemoBuilder` successfully builds. -/
def unregDepDemoEngine : Engine :=
  { Engine.new with
    layers := [("X", ⟨"X", [], []⟩)],
    dependencies := [("X", ["ghost"])] }

/-- A builder whose dependency is declared by an unregistered source
layer. -/
def unregSrcDemoBuilder : EngineBuilder :=
  { layers := [⟨"X", [], []⟩],
    slices := [], dependencies := [("ghost", ["X"])], init_layer := none,
    config := EngineConfig.new }

/-- The engine `unregSrcDemoBuilder` successfully builds. -/
def unregSrcDemoEngine : Engine :=
  { Engine.new with
    layers := [("X", ⟨"X", [], []⟩)],
    dependencies := [("ghost", ["X"])] }

/-! ## Proof infrastructure

Decidability instances (used to evaluate the model on concrete inputs) and
general lemmas about the embedded operations. -/

mutual

theorem Value.beqVal_refl : (v : Value) → Value.beqVal v v = true
  | .null => rfl
  | .bool _ => by simp [Value.beqVal]
  | .number _ => by simp [Value.beqVal]
  | .string _ => by simp [Value.beqVal]
  | .array l => by simp [Value.beqVal, Value.beqVal_list_refl l]
  | .object l => by simp [Value.beqVal, Value.beqVal_fields_refl l]

theorem Value.beqVal_list_refl : (l : List Value) → Value.beqVal.beqList l l = true
  | [] => rfl
  | x :: xs => by
    simp [Value.beqVal.beqList, Value.beqVal_refl x, Value.beqVal_list_refl xs]

theorem Value.beqVal_fields_refl : (l : List (String × Value)) →
    Value.beqVal.beqFields l l = true
  | [] => rfl
  | (_, x) :: xs => by
    simp [Value.beqVal.beqFields, Value.beqVal_refl x, Value.beqVal_fields_refl xs]

end

mutual

theorem Value.eq_of_beqVal : {a b : Value} → Value.beqVal a b = true → a = b
  | .null, .null, _ => rfl
  | .bool _, .bool _, h => congrArg Value.bool (by simpa [Value.beqVal] using h)
  | .number _, .number _, h => congrArg Value.number (by simpa [Value.beqVal] using h)
  | .string _, .string _, h => congrArg Value.string (by simpa [Value.beqVal] using h)
  | .array a, .array b, h => by
      have : a = b := Value.eq_of_beqVal_list (by simpa [Value.beqVal] using h)
      exact congrArg Value.array this
  | .object a, .object b, h => by
      have : a = b := Value.eq_of_beqVal_fields (by simpa [Value.beqVal] using h)
      exact congrArg Value.object this

theorem Value.eq_of_beqVal_list : {a b : List Value} →
    Value.beqVal.beqList a b = true → a = b
  | [], [], _ => rfl
  | x :: xs, y :: ys, h => by
      have h' := h
      simp only [Value.beqVal.beqList, Bool.and_eq_true] at h'
      have h1 : x = y := Value.eq_of_beqVal h'.1
      have h2 : xs = ys := Value.eq_of_beqVal_list h'.2
      rw [h1, h2]

theorem Value.eq_of_beqVal_fields : {a b : List (String × Value)} →
    Value.beqVal.beqFields a b = true → a = b
  | [], [], _ => rfl
  | (k, x) :: xs, (l, y) :: ys, h => by
      have h' := h
      simp only [Value.beqVal.beqFields, Bool.and_eq_true] at h'
      have hk : k = l := eq_of_beq h'.1.1
      have h1 : x = y := Value.eq_of_beqVal h'.1.2
      have h2 : xs = ys := Value.eq_of_beqVal_fields h'.2
      rw [hk, h1, h2]

end

instance : DecidableEq Value := fun a b =>
  if h : Value.beqVal a b = true then
    .isTrue (Value.eq_of_beqVal h)
  else
    .isFalse (fun he => h (he ▸ Value.beqVal_refl a))

deriving instance DecidableEq for Err

instance : DecidableEq (Except Err Value) := fun a b =>
  match a, b with
  | .ok x, .ok y =>
    if h : x = y then .isTrue (by rw [h]) else .isFalse (fun he => h (by cases he; rfl))
  | .error x, .error y =>
    if h : x = y then .isTrue (by rw [h]) else .isFalse (fun he => h (by cases he; rfl))
  | .ok _, .error _ => .isFalse (fun he => by cases he)
  | .error _, .ok _ => .isFalse (fun he => by cases he)

instance : DecidableEq SliceResults := fun a b =>
  match a, b with
  | ⟨x⟩, ⟨y⟩ =>
    if h : x = y then .isTrue (by rw [h]) else .isFalse (fun he => h (by cases he; rfl))

/-- Concatenating the chunks of a list gives the list back (`n > 0`). -/
theorem chunksGo_join {α : Type _} (n : Nat) (hn : 0 < n) :
    ∀ (fuel : Nat) (l : List α), l.length ≤ fuel → (chunksGo n fuel l).flatten = l := by
  intro fuel
  induction fuel with
  | zero =>
    intro l hl
    have : l = [] := List.eq_nil_of_length_eq_zero (Nat.le_zero.mp hl)
    subst this; rfl
  | succ fuel ih =>
    intro l hl
    cases l with
    | nil => rfl
    | cons x xs =>
      simp only [chunksGo, List.flatten_cons]
      rw [ih ((x :: xs).drop n) (by simp only [List.length_drop, List.length_cons] at hl ⊢; omega)]
      exact List.take_append_drop n (x :: xs)

/-- Every schedule entry produced by a wave scan names a remaining layer. -/
theorem Engine.waveOf_mem_remaining (E : Engine) (slice : Slice)
    (remaining completed : List String) (p : String × String)
    (hp : p ∈ E.waveOf slice remaining completed) : p.1 ∈ remaining := by
  have key : ∀ (l : List String) (acc : List (String × String)),
      p ∈ l.foldl (fun acc layer_name =>
        if E.depsSatisfied completed layer_name then
          match slice.get_layer_methods layer_name with
          | .ok methods => acc ++ methods.map (fun m => (layer_name, m))
          | .error _ => acc
        else acc) acc → p ∈ acc ∨ p.1 ∈ l := by
    intro l
    induction l with
    | nil => intro acc h; exact Or.inl h
    | cons x xs ih =>
      intro acc h
      simp only [List.foldl_cons] at h
      rcases ih _ h with h' | h'
      · by_cases hd : E.depsSatisfied completed x
        · simp only [hd, if_true] at h'
          cases hm : slice.get_layer_methods x with
          | ok methods =>
            rw [hm] at h'
            rcases List.mem_append.mp h' with h'' | h''
            · exact Or.inl h''
            · right
              rcases List.mem_map.mp h'' with ⟨m, _, hm'⟩
              simp [← hm']
          | error e => rw [hm] at h'; exact Or.inl h'
        · simp only [hd, if_false] at h'
          exact Or.inl h'
      · right; exact List.mem_cons_of_mem _ h'
  rcases key remaining [] hp with h | h
  · cases h
  · exact h

/-- A non-empty wave always removes at least one remaining layer. -/
theorem Engine.wavesLoop_remaining_decreases (E : Engine) (slice : Slice)
    (remaining completed : List String)
    (hw : E.waveOf slice remaining completed ≠ []) :
    (remaining.filter
        (fun l => !((E.waveOf slice remaining completed).map Prod.fst).contains l)).length <
      remaining.length := by
  refine List.length_filter_lt_length_iff_exists.mpr ?_
  rcases List.exists_mem_of_ne_nil _ hw with ⟨p, hp⟩
  refine ⟨p.1, E.waveOf_mem_remaining slice remaining completed p hp, ?_⟩
  simp only [Bool.not_eq_true', Bool.not_eq_false, List.contains, List.elem_eq_mem,
    decide_eq_true_eq]
  exact List.mem_map_of_mem Prod.fst hp

/-- Any fuel of at least `remaining.length` computes the same waves: the
fuel bound of the model is immaterial. -/
theorem Engine.wavesLoop_fuel_irrelevant (E : Engine) (slice : Slice) :
    ∀ (f g : Nat) (remaining completed : List String),
      remaining.length ≤ f → remaining.length ≤ g →
      E.wavesLoop slice f remaining completed = E.wavesLoop slice g remaining completed := by
  intro f
  induction f with
  | zero =>
    intro g remaining completed hf _
    have : remaining = [] := List.eq_nil_of_length_eq_zero (Nat.le_zero.mp hf)
    subst this
    cases g <;> simp [Engine.wavesLoop]
  | succ f ih =>
    intro g remaining completed hf hg
    by_cases hr : remaining = []
    · subst hr; cases g <;> simp [Engine.wavesLoop]
    · have hlen : 0 < remaining.length := List.length_pos.mpr hr
      cases g with
      | zero => omega
      | succ g =>
        simp only [Engine.wavesLoop, if_neg hr]
        by_cases hw : E.waveOf slice remaining completed = []
        · simp [hw]
        · simp only [hw, if_neg hw]
          have hdec := E.wavesLoop_remaining_decreases slice remaining completed hw
          rw [ih g _ _ (by omega) (by omega)]

/-! ### Association-list lemmas -/

theorem mapLookup_append {κ α : Type _} [DecidableEq κ] (a b : List (κ × α)) (k : κ) :
    mapLookup (a ++ b) k =
      match mapLookup a k with
      | some v => some v
      | none => mapLookup b k := by
  induction a with
  | nil => simp [mapLookup]
  | cons p rest ih =>
    cases p with
    | mk k' v =>
      by_cases h : k' = k
      · simp [mapLookup, h]
      · simp [mapLookup, h, ih]

/-- The fundamental lookup/insert law of the `HashMap` model. -/
theorem mapLookup_mapInsert {κ α : Type _} [DecidableEq κ]
    (m : List (κ × α)) (k k' : κ) (v : α) :
    mapLookup (mapInsert m k v) k' = if k' = k then some v else mapLookup m k' := by
  induction m with
  | nil =>
    by_cases hk : k' = k
    · simp [mapInsert, mapLookup, hk]
    · have hk2 : ¬ k = k' := fun he => hk he.symm
      simp [mapInsert, mapLookup, hk, hk2]
  | cons p rest ih =>
    obtain ⟨k0, v0⟩ := p
    by_cases h0 : k0 = k
    · subst h0
      by_cases hk : k' = k0
      · simp [mapInsert, mapLookup, hk]
      · have hk2 : ¬ k0 = k' := fun he => hk he.symm
        simp [mapInsert, mapLookup, hk, hk2]
    · by_cases hk0 : k0 = k'
      · have h0' : ¬ k' = k := fun he => h0 (hk0.symm ▸ he)
        simp [mapInsert, mapLookup, h0, hk0, h0', ih]
      · simp [mapInsert, mapLookup, h0, hk0, ih]

theorem mapLookup_mapExtend {κ α : Type _} [DecidableEq κ] :
    ∀ (entries acc : List (κ × α)) (k : κ),
      mapLookup (mapExtend acc entries) k =
        match mapLookup entries.reverse k with
        | some v => some v
        | none => mapLookup acc k := by
  intro entries
  induction entries with
  | nil => intro acc k; simp [mapExtend, mapLookup]
  | cons p rest ih =>
    intro acc k
    have step : mapExtend acc (p :: rest) = mapExtend (mapInsert acc p.1 p.2) rest := rfl
    rw [step, ih (mapInsert acc p.1 p.2) k, List.reverse_cons, mapLookup_append]
    cases hm : mapLookup rest.reverse k
    · simp only [mapLookup, mapLookup_mapInsert]
      by_cases hk : p.1 = k
      · simp [hk]
      · have hk2 : ¬ k = p.1 := fun he => hk he.symm
        simp [hk, hk2]
    · rfl

theorem mapLookup_collectMap {κ α : Type _} [DecidableEq κ]
    (entries : List (κ × α)) (k : κ) :
    mapLookup (collectMap entries) k = mapLookup entries.reverse k := by
  rw [collectMap, mapLookup_mapExtend entries [] k]
  cases mapLookup entries.reverse k <;> rfl

/-- A key outside a map's key list has no binding. -/
theorem mapLookup_eq_none_of_not_mem_keys {κ α : Type _} [DecidableEq κ] :
    ∀ (m : List (κ × α)) (k : κ), k ∉ m.map Prod.fst → mapLookup m k = none := by
  intro m
  induction m with
  | nil => intro k _; rfl
  | cons p rest ih =>
    intro k hk
    obtain ⟨k0, v0⟩ := p
    simp only [List.map_cons, List.mem_cons] at hk
    push_neg at hk
    simp only [mapLookup]
    rw [if_neg (fun he => hk.1 he.symm)]
    exact ih k hk.2

/-- On a map with duplicate-free keys (the `HashMap` representation
invariant) the first and the last binding of a key agree. -/
theorem mapLookup_reverse_of_nodup {κ α : Type _} [DecidableEq κ] :
    ∀ (m : List (κ × α)), (m.map Prod.fst).Nodup →
      ∀ k, mapLookup m.reverse k = mapLookup m k := by
  intro m
  induction m with
  | nil => intro _ k; rfl
  | cons p rest ih =>
    intro hnd k
    obtain ⟨k0, v0⟩ := p
    simp only [List.map_cons, List.nodup_cons] at hnd
    rw [List.reverse_cons, mapLookup_append, ih hnd.2 k]
    by_cases hk : k0 = k
    · subst hk
      rw [mapLookup_eq_none_of_not_mem_keys rest k0 hnd.1]
      simp [mapLookup]
    · cases hm : mapLookup rest k with
      | none => simp [mapLookup, hk, hm]
      | some v => simp [mapLookup, hk, hm]

/-- Inserting a transformed value into a value-transformed map commutes
with inserting and then transforming. -/
theorem mapInsert_map_val {κ α : Type _} [DecidableEq κ] (g : κ → α → α)
    (m : List (κ × α)) (k : κ) (v : α) :
    mapInsert (m.map (fun q => (q.1, g q.1 q.2))) k (g k v) =
      (mapInsert m k v).map (fun q => (q.1, g q.1 q.2)) := by
  induction m with
  | nil => rfl
  | cons p rest ih =>
    obtain ⟨k0, v0⟩ := p
    by_cases h0 : k0 = k
    · subst h0; simp [mapInsert]
    · simp [mapInsert, h0, ih]

/-- Context attachment never changes the root cause of an error. -/
theorem attachInvocationContext_root_cause (slice : Slice)
    (layer method : String) (e : Err) :
    (Engine.attachInvocationContext slice layer method e).root_cause = e.root_cause := by
  unfold Engine.attachInvocationContext
  by_cases he : e.is_execution_error
  · simp [he]
  · simp [he, Err.with_context, Err.root_cause]

/-! ### C4: per-method failure isolation -/

/-- **C4.**  For a slice invoking, on one layer, a method `m1` whose bound
function always fails and a method `m2` whose bound function always
succeeds, the run yields a `RunResults` in which the slice is an `Ok` entry
(successfully scheduled) whose `SliceResults` records `m1`'s own error and
`m2`'s own success: one pair's failure affects no other pair, wave, or
slice. -/
theorem c4_per_method_failure_isolated (f1 f2 : MethodFn)
    (hf1 : ∀ (a : Value) (c : Ctx), ∃ er, f1 a c = .error er)
    (hf2 : ∀ (a : Value) (c : Ctx), ∃ v, f2 a c = .ok v) :
    ∃ (er : Err) (v : Value),
      (failDemoEngine f1 f2).run_silent false =
        .ok [("s", .ok ⟨[(("L", "m1"), .error er), (("L", "m2"), .ok v)]⟩)] := by
  obtain ⟨er, he⟩ := hf1 Value.null []
  obtain ⟨v, hv⟩ := hf2 Value.null []
  have base : (failDemoEngine f1 f2).run_silent false =
      .ok [("s", .ok ⟨[(("L", "m1"), f1 Value.null []), (("L", "m2"), f2 Value.null [])]⟩)] :=
    rfl
  rw [he, hv] at base
  exact ⟨er, v, base⟩

/-- Witness for C4 with concrete always-failing / always-succeeding bound
functions. -/
theorem c4_witness :
    ∃ (er : Err) (v : Value),
      (failDemoEngine boomFn okFn3).run_silent false =
        .ok [("s", .ok ⟨[(("L", "m1"), .error er), (("L", "m2"), .ok v)]⟩)] :=
  c4_per_method_failure_isolated boomFn okFn3
    (fun _ _ => ⟨.ExecutionError "boom", rfl⟩)
    (fun _ _ => ⟨.number (.Int 3), rfl⟩)

/-! ### C5: observation as a side channel -/

/-- **C5** (amended).  Executing a slice with observation enabled produces
exactly the observation-disabled results with every per-method failure
context-wrapped (`observe_execute_method`'s `map_err`): the schedule, the
set of entries, the success/failure classification, every success value and
every failure's root cause are identical; only the error wrapper (and the
unmodelled timing/event side channel) differs. -/
theorem c5_observation_wraps_failures_only :
    (∀ (E : Engine) (slice : Slice) (order : List String),
        E.execute_slice slice order true =
          sliceResultsWithContext slice (E.execute_slice slice order false)) ∧
    (∀ (slice : Slice) (key : String × String) (v : Value),
        wrapMethodResult slice key (.ok v) = .ok v) ∧
    (∀ (slice : Slice) (key : String × String) (e : Err),
        ∃ e', wrapMethodResult slice key (.error e) = .error e' ∧
          e'.root_cause = e.root_cause) := by
  refine ⟨?_, fun _ _ _ => rfl, fun slice key e =>
    ⟨Engine.attachInvocationContext slice key.1 key.2 e, rfl,
      attachInvocationContext_root_cause slice key.1 key.2 e⟩⟩
  intro E slice order
  have hobs : ∀ (p : String × String),
      E.observe_execute_method slice p.1 p.2 [] =
        wrapMethodResult slice p (E.execute_method slice p.1 p.2 []) := by
    intro p
    cases h : E.execute_method slice p.1 p.2 [] with
    | ok v => simp [Engine.observe_execute_method, wrapMethodResult, h]
    | error e => simp [Engine.observe_execute_method, wrapMethodResult, h]
  unfold Engine.execute_slice
  cases hw : E.compute_method_waves slice order with
  | error e => rfl
  | ok waves =>
    simp only [sliceResultsWithContext]
    congr 1
    have main : ∀ (F G : (String × String) → Except Err Value),
        (∀ p, F p = wrapMethodResult slice p (G p)) →
        ∀ (ws : List (List (String × String))) (accT accF : SliceResults),
        accT.method_results =
          accF.method_results.map (fun q => (q.1, wrapMethodResult slice q.1 q.2)) →
        (ws.foldl (fun results wave =>
            (wave.map (fun p => (p, F p))).foldl
              (fun rs q => rs.add_result q.1.1 q.1.2 q.2) results) accT).method_results =
          ((ws.foldl (fun results wave =>
            (wave.map (fun p => (p, G p))).foldl
              (fun rs q => rs.add_result q.1.1 q.1.2 q.2) results) accF).method_results).map
            (fun q => (q.1, wrapMethodResult slice q.1 q.2)) := by
      intro F G hFG
      have inner : ∀ (pairs : List (String × String)) (accT accF : SliceResults),
          accT.method_results =
            accF.method_results.map (fun q => (q.1, wrapMethodResult slice q.1 q.2)) →
          (pairs.foldl (fun rs p => rs.add_result p.1 p.2 (F p)) accT).method_results =
            ((pairs.foldl (fun rs p => rs.add_result p.1 p.2 (G p)) accF).method_results).map
              (fun q => (q.1, wrapMethodResult slice q.1 q.2)) := by
        intro pairs
        induction pairs with
        | nil => intro accT accF h; exact h
        | cons p ptail ihp =>
          intro accT accF h
          simp only [List.foldl_cons]
          apply ihp
          simp only [SliceResults.add_result]
          rw [h, hFG p]
          exact mapInsert_map_val (fun key r => wrapMethodResult slice key r)
            accF.method_results p (G p)
      intro ws
      induction ws with
      | nil => intro accT accF h; exact h
      | cons wave rest ihw =>
        intro accT accF h
        simp only [List.foldl_cons]
        apply ihw
        rw [List.foldl_map, List.foldl_map]
        exact inner wave accT accF h
    have hres := main
      (fun p => if true then E.observe_execute_method slice p.1 p.2 []
        else E.execute_method slice p.1 p.2 [])
      (fun p => if false then E.observe_execute_method slice p.1 p.2 []
        else E.execute_method slice p.1 p.2 [])
      (fun p => hobs p) waves ⟨[]⟩ ⟨[]⟩ rfl
    exact congrArg SliceResults.mk hres

/-- **C5 counterexample.**  Result content is *not* byte-for-byte identical
with and without observation: with observation the failing entry is the
context-wrapped `MethodExecutionFailed`, without it the raw
`ExecutionError`. -/
theorem c5_counterexample :
    (failDemoEngine boomFn okFn3).run_silent true =
      .ok [("s", .ok ⟨[(("L", "m1"),
            .error (.MethodExecutionFailed "s" "L" "m1" .null (.ExecutionError "boom"))),
          (("L", "m2"), .ok (.number (.Int 3)))]⟩)] ∧
    (failDemoEngine boomFn okFn3).run_silent false =
      .ok [("s", .ok ⟨[(("L", "m1"), .error (.ExecutionError "boom")),
          (("L", "m2"), .ok (.number (.Int 3)))]⟩)] ∧
    Err.MethodExecutionFailed "s" "L" "m1" .null (.ExecutionError "boom") ≠
      .ExecutionError "boom" :=
  ⟨rfl, rfl, by decide⟩

/-- Keys after an insert: unchanged for a present key, the new key appended
otherwise. -/
theorem mapInsert_keys {κ α : Type _} [DecidableEq κ] (m : List (κ × α)) (k : κ) (v : α) :
    (mapInsert m k v).map Prod.fst =
      if k ∈ m.map Prod.fst then m.map Prod.fst else m.map Prod.fst ++ [k] := by
  induction m with
  | nil => simp [mapInsert]
  | cons p rest ih =>
    obtain ⟨k0, v0⟩ := p
    by_cases h0 : k0 = k
    · subst h0; simp [mapInsert]
    · have h0' : ¬ k = k0 := fun he => h0 he.symm
      by_cases hk : k ∈ rest.map Prod.fst
      · simp [mapInsert, h0, hk, h0', ih]
      · simp [mapInsert, h0, hk, h0', ih]

/-- Inserting preserves duplicate-freedom of the key list. -/
theorem mapInsert_keys_nodup {κ α : Type _} [DecidableEq κ]
    (m : List (κ × α)) (k : κ) (v : α) (h : (m.map Prod.fst).Nodup) :
    ((mapInsert m k v).map Prod.fst).Nodup := by
  rw [mapInsert_keys]
  by_cases hk : k ∈ m.map Prod.fst
  · simpa [hk] using h
  · simpa [hk, List.nodup_append] using h

/-- Extending preserves duplicate-freedom of the key list. -/
theorem mapExtend_keys_nodup {κ α : Type _} [DecidableEq κ] :
    ∀ (entries acc : List (κ × α)), (acc.map Prod.fst).Nodup →
      ((mapExtend acc entries).map Prod.fst).Nodup := by
  intro entries
  induction entries with
  | nil => intro acc h; exact h
  | cons p rest ih =>
    intro acc h
    exact ih (mapInsert acc p.1 p.2) (mapInsert_keys_nodup acc p.1 p.2 h)

/-- A collected map has duplicate-free keys: one entry per key. -/
theorem collectMap_keys_nodup {κ α : Type _} [DecidableEq κ] (entries : List (κ × α)) :
    ((collectMap entries).map Prod.fst).Nodup :=
  mapExtend_keys_nodup entries [] List.nodup_nil

/-- Every key of an extended map comes from the accumulator or the new
entries. -/
theorem mapExtend_keys_subset {κ α : Type _} [DecidableEq κ] :
    ∀ (entries acc : List (κ × α)) (x : κ),
      x ∈ (mapExtend acc entries).map Prod.fst →
      x ∈ acc.map Prod.fst ∨ x ∈ entries.map Prod.fst := by
  intro entries
  induction entries with
  | nil => intro acc x h; exact Or.inl h
  | cons p rest ih =>
    intro acc x h
    rcases ih (mapInsert acc p.1 p.2) x h with h' | h'
    · rw [mapInsert_keys] at h'
      by_cases hp : p.1 ∈ acc.map Prod.fst
      · rw [if_pos hp] at h'; exact Or.inl h'
      · rw [if_neg hp] at h'
        rcases List.mem_append.mp h' with h'' | h''
        · exact Or.inl h''
        · right; simp at h''; simp [h'']
    · right; exact List.mem_cons_of_mem _ h'

/-- A key has a binding exactly when it occurs in the key list. -/
theorem mapLookup_isSome_iff {κ α : Type _} [DecidableEq κ] :
    ∀ (m : List (κ × α)) (k : κ), (mapLookup m k).isSome = true ↔ k ∈ m.map Prod.fst := by
  intro m
  induction m with
  | nil => intro k; simp [mapLookup]
  | cons p rest ih =>
    intro k
    obtain ⟨k0, v0⟩ := p
    by_cases h0 : k0 = k
    · simp [mapLookup, h0]
    · have h0' : ¬ k = k0 := fun he => h0 he.symm
      simp [mapLookup, h0, h0', ih]

/-- A list with a repeated element has strictly fewer distinct elements
than entries. -/
theorem toFinset_card_lt_of_not_nodup {α : Type _} [DecidableEq α]
    (l : List α) (h : ¬ l.Nodup) : l.toFinset.card < l.length := by
  rcases Nat.lt_or_ge l.toFinset.card l.length with hlt | hge
  · exact hlt
  · exfalso
    apply h
    have hle : l.toFinset.card ≤ l.length := List.toFinset_card_le l
    have hcard : l.toFinset.card = l.length := Nat.le_antisymm hle hge
    have := Multiset.toFinset_card_eq_card_iff_nodup (m := (l : Multiset α))
    simp only [Multiset.coe_card] at this
    exact Multiset.coe_nodup.mp (this.mp hcard)

/-- Chunking is transparent: a silent batch execution is the collected map
of one named outcome per slice, in slice order, whatever the configured
`chunk_size`. -/
theorem execute_batch_silent_pairs (E : Engine) (slices : List Slice)
    (execution_order : List String) (use_observer : Bool) :
    E.execute_batch_silent slices execution_order use_observer =
      collectMap (slices.map
        (fun s => (s.name, E.execute_slice s execution_order use_observer))) := by
  unfold Engine.execute_batch_silent
  dsimp only
  by_cases hc : E.config.chunk_size > 1
  · rw [if_pos hc]
    congr 1
    have hfold : ∀ (cs : List (List Slice)),
        cs.foldr (fun c acc => c.map
            (fun s => (s.name, E.execute_slice s execution_order use_observer)) ++ acc) [] =
          cs.flatten.map (fun s => (s.name, E.execute_slice s execution_order use_observer)) := by
      intro cs
      induction cs with
      | nil => rfl
      | cons c rest ihc => simp [List.flatten_cons, List.map_append, ihc]
    rw [hfold]
    rw [chunks, chunksGo_join E.config.chunk_size (by omega) slices.length slices le_rfl]
  · rw [if_neg hc]

/-! ### Wave-computation lemmas -/

/-- `List.contains` agrees with membership (lawful `BEq`). -/
theorem list_contains_iff {α : Type _} [BEq α] [LawfulBEq α] (l : List α) (a : α) :
    l.contains a = true ↔ a ∈ l := by
  simp [List.contains, List.elem_eq_mem]

/-- The wave scan is the concatenation, over the remaining layers in scan
order, of one schedule entry per invoked method of each eligible layer. -/
theorem Engine.waveOf_eq (E : Engine) (slice : Slice)
    (remaining completed : List String) :
    E.waveOf slice remaining completed = remaining.flatMap (fun layer_name =>
      if E.depsSatisfied completed layer_name then
        match slice.get_layer_methods layer_name with
        | .ok methods => methods.map (fun m => (layer_name, m))
        | .error _ => []
      else []) := by
  unfold Engine.waveOf
  suffices h : ∀ (l : List String) (acc : List (String × String)),
      l.foldl (fun acc layer_name =>
        if E.depsSatisfied completed layer_name then
          match slice.get_layer_methods layer_name with
          | .ok methods => acc ++ methods.map (fun m => (layer_name, m))
          | .error _ => acc
        else acc) acc =
      acc ++ l.flatMap (fun layer_name =>
        if E.depsSatisfied completed layer_name then
          match slice.get_layer_methods layer_name with
          | .ok methods => methods.map (fun m => (layer_name, m))
          | .error _ => []
        else []) by
    simpa using h remaining []
  intro l
  induction l with
  | nil => intro acc; simp
  | cons x xs ih =>
    intro acc
    simp only [List.foldl_cons, List.flatMap_cons]
    rw [ih]
    by_cases hd : E.depsSatisfied completed x
    · simp only [hd, if_true]
      cases hm : slice.get_layer_methods x with
      | ok methods => simp [List.append_assoc]
      | error e => simp
    · simp [hd]

/-- Membership in a wave: an entry per invoked method of each eligible
remaining layer. -/
theorem Engine.waveOf_mem (E : Engine) (slice : Slice)
    (remaining completed : List String) (p : String × String) :
    p ∈ E.waveOf slice remaining completed ↔
      p.1 ∈ remaining ∧ E.depsSatisfied completed p.1 = true ∧
        ∃ ms, slice.get_layer_methods p.1 = .ok ms ∧ p.2 ∈ ms := by
  rw [Engine.waveOf_eq, List.mem_flatMap]
  constructor
  · rintro ⟨l, hl, hp⟩
    by_cases hd : E.depsSatisfied completed l
    · rw [if_pos hd] at hp
      cases hm : slice.get_layer_methods l with
      | ok ms =>
        rw [hm] at hp
        rcases List.mem_map.mp hp with ⟨m, hmem, hpe⟩
        subst hpe
        exact ⟨hl, hd, ms, hm, hmem⟩
      | error e => rw [hm] at hp; cases hp
    · rw [if_neg hd] at hp; cases hp
  · rintro ⟨h1, h2, ms, hm, hmem⟩
    refine ⟨p.1, h1, ?_⟩
    rw [if_pos h2, hm]
    exact List.mem_map.mpr ⟨p.2, hmem, rfl⟩

/-- A layer with no recorded dependency is always eligible. -/
theorem Engine.depsSatisfied_of_no_deps (E : Engine) (l : String)
    (h : (mapLookup E.dependencies l).getD [] = []) (completed : List String) :
    E.depsSatisfied completed l = true := by
  unfold Engine.depsSatisfied
  cases hm : mapLookup E.dependencies l with
  | none => rfl
  | some d =>
    rw [hm] at h
    simp only [Option.getD_some] at h
    subst h
    rfl

/-- When no layers remain, the wave loop yields no further waves. -/
theorem Engine.wavesLoop_nil (E : Engine) (slice : Slice) :
    ∀ (fuel : Nat) (completed : List String),
      E.wavesLoop slice fuel [] completed = .ok [] := by
  intro fuel completed
  cases fuel <;> simp [Engine.wavesLoop]

/-- One unfolding of the wave loop when progress is possible. -/
theorem Engine.wavesLoop_step (E : Engine) (slice : Slice) (fuel : Nat)
    (remaining completed : List String)
    (hne : remaining ≠ []) (hwne : E.waveOf slice remaining completed ≠ []) :
    E.wavesLoop slice (fuel + 1) remaining completed =
      match E.wavesLoop slice fuel
          (remaining.filter (fun l =>
            !((E.waveOf slice remaining completed).map Prod.fst).contains l))
          (completed ++ (E.waveOf slice remaining completed).map Prod.fst) with
      | .ok rest => .ok (E.waveOf slice remaining completed :: rest)
      | .error e => .error e := by
  simp only [Engine.wavesLoop, if_neg hne, if_neg hwne]

/-! ### Topological-sort machinery (shared by the graph claims)

`Engine.topological_sort` is Kahn's algorithm.  The lemmas below establish
the standard loop invariant — the emitted prefix is duplicate-free and
lists every recorded dependency of an element strictly before it — and the
bookkeeping facts about the in-degree/adjacency maps the loop maintains. -/

/-- `count` over `cons`, with a propositional `if`. -/
theorem count_cons_eq (a b : String) (l : List String) :
    (b :: l).count a = l.count a + (if a = b then 1 else 0) := by
  by_cases h : a = b
  · simp [List.count_cons, h]
  · simp [List.count_cons, h, Ne.symm h]

/-- Unpack a successful positional lookup. -/
theorem getElem?_some_elim {α : Type _} {l : List α} {i : Nat} {x : α}
    (h : l[i]? = some x) : ∃ hi : i < l.length, l[i] = x := by
  by_cases hi : i < l.length
  · refine ⟨hi, ?_⟩
    rw [List.getElem?_eq_getElem hi] at h
    exact Option.some.inj h
  · rw [List.getElem?_eq_none (by omega)] at h
    cases h

/-- An element of a `take` prefix sits at an index below the cut. -/
theorem mem_take_exists_getElem {α : Type _} (l : List α) (j : Nat) (b : α)
    (h : b ∈ l.take j) : ∃ i, i < j ∧ l[i]? = some b := by
  obtain ⟨i, hi, he⟩ := List.getElem_of_mem h
  have hlt : (l.take j).length = min j l.length := by simp
  have hij : i < j := by omega
  have hlen : i < l.length := by omega
  refine ⟨i, hij, ?_⟩
  have hsplit : l.take j ++ l.drop j = l := List.take_append_drop j l
  have h1 : l[i]? = (l.take j)[i]? := by
    conv_lhs => rw [← hsplit]
    rw [List.getElem?_append]
    exact if_pos hi
  rw [h1, List.getElem?_eq_getElem hi, he]

/-- In a duplicate-free list, positions of a common value coincide. -/
theorem nodup_getElem?_inj {α : Type _} (l : List α) (hnd : l.Nodup)
    {i j : Nat} {x : α} (hi : l[i]? = some x) (hj : l[j]? = some x) : i = j := by
  obtain ⟨hi', hxi⟩ := getElem?_some_elim hi
  obtain ⟨hj', hxj⟩ := getElem?_some_elim hj
  have hg : l.get ⟨i, hi'⟩ = l.get ⟨j, hj'⟩ := by
    simp only [List.get_eq_getElem]
    rw [hxi, hxj]
  have h2 := List.nodup_iff_injective_get.mp hnd hg
  exact congrArg Fin.val h2

/-- Every member occurs at some position. -/
theorem mem_exists_getElem? {α : Type _} (l : List α) (x : α) (h : x ∈ l) :
    ∃ i : Nat, l[i]? = some x := by
  obtain ⟨i, hi, he⟩ := List.getElem_of_mem h
  exact ⟨i, by rw [List.getElem?_eq_getElem hi, he]⟩

/-- Order is preserved under `cons`. -/
theorem ListBefore.cons (l : List String) (x b a : String)
    (h : ListBefore l b a) : ListBefore (x :: l) b a := by
  obtain ⟨i, j, hij, hi, hj⟩ := h
  exact ⟨i + 1, j + 1, by omega, by simpa using hi, by simpa using hj⟩

/-- The head precedes every member of the tail. -/
theorem ListBefore.head (l : List String) (x b : String) (h : b ∈ l) :
    ListBefore (x :: l) x b := by
  obtain ⟨i, hi⟩ := mem_exists_getElem? l b h
  exact ⟨0, i + 1, by omega, by simp, by simpa using hi⟩

/-- Relative order of surviving elements is preserved by `filter`. -/
theorem ListBefore.filter (p : String → Bool) :
    ∀ (l : List String) (b a : String), ListBefore l b a →
      p b = true → p a = true → ListBefore (l.filter p) b a := by
  intro l
  induction l with
  | nil => rintro b a ⟨i, j, _, hi, _⟩ _ _; simp at hi
  | cons x t ih =>
    rintro b a ⟨i, j, hij, hi, hj⟩ hpb hpa
    cases i with
    | zero =>
      have hbx : x = b := by simpa using hi
      have hj' : t[j - 1]? = some a := by
        cases j with
        | zero => omega
        | succ j2 => simpa using hj
      have ha : a ∈ t := by
        obtain ⟨hl, he⟩ := getElem?_some_elim hj'
        exact he ▸ List.getElem_mem hl
      have haf : a ∈ t.filter p := List.mem_filter.mpr ⟨ha, hpa⟩
      rw [← hbx] at hpb
      have hfc : (x :: t).filter p = x :: t.filter p := by
        rw [List.filter_cons, if_pos hpb]
      rw [← hbx, hfc]
      exact ListBefore.head _ x a haf
    | succ i2 =>
      have hj2 : ∃ j3, j = j3 + 1 := by
        cases j with
        | zero => omega
        | succ j3 => exact ⟨j3, rfl⟩
      obtain ⟨j3, rfl⟩ := hj2
      have hbase : ListBefore t b a :=
        ⟨i2, j3, by omega, by simpa using hi, by simpa using hj⟩
      have hres := ih b a hbase hpb hpa
      by_cases hpx : p x = true
      · have hfc : (x :: t).filter p = x :: t.filter p := by
          rw [List.filter_cons, if_pos hpx]
        rw [hfc]
        exact ListBefore.cons _ x b a hres
      · have hfc : (x :: t).filter p = t.filter p := by
          rw [List.filter_cons, if_neg hpx]
        rw [hfc]
        exact hres

/-- Specification of the neighbor-decrement pass: when every key of the
neighbor list is tracked and no neighbor is decremented below zero (both
hold on reachable states), the pass succeeds, subtracts each key's
occurrence count, keeps the key list, and pushes exactly the tracked
neighbors whose count reached zero, each once. -/
theorem decNeighbors_spec :
    ∀ (nbrs : List String) (indeg : List (String × Nat)),
      (∀ b ∈ nbrs, b ∈ indeg.map Prod.fst) →
      (∀ x v, mapLookup indeg x = some v → nbrs.count x ≤ v) →
      ∃ indeg' pushed, decNeighbors nbrs indeg = .ok (indeg', pushed) ∧
        indeg'.map Prod.fst = indeg.map Prod.fst ∧
        (∀ x v, mapLookup indeg x = some v →
          mapLookup indeg' x = some (v - nbrs.count x)) ∧
        (∀ x, x ∈ pushed → x ∈ nbrs) ∧
        pushed.Nodup ∧
        (∀ x v, mapLookup indeg x = some v →
          (x ∈ pushed ↔ x ∈ nbrs ∧ v = nbrs.count x)) := by
  intro nbrs
  induction nbrs with
  | nil =>
    intro indeg _ _
    refine ⟨indeg, [], rfl, rfl, ?_, ?_, List.nodup_nil, ?_⟩
    · intro x v h; simpa using h
    · intro x h; simp at h
    · intro x v _; simp
  | cons nb rest ih =>
    intro indeg hmem hcnt
    have hnb : nb ∈ indeg.map Prod.fst := hmem nb (List.mem_cons_self nb rest)
    obtain ⟨deg, hdeg⟩ := Option.isSome_iff_exists.mp
      ((mapLookup_isSome_iff indeg nb).mpr hnb)
    have hckey : (nb :: rest).count nb ≤ deg := hcnt nb deg hdeg
    have hcc0 : (nb :: rest).count nb = rest.count nb + 1 := by
      simp [count_cons_eq]
    set indeg1 := mapInsert indeg nb (deg - 1) with hindeg1
    have hkeys1 : indeg1.map Prod.fst = indeg.map Prod.fst := by
      rw [hindeg1, mapInsert_keys, if_pos hnb]
    have hlook1 : ∀ x, mapLookup indeg1 x =
        if x = nb then some (deg - 1) else mapLookup indeg x := by
      intro x; rw [hindeg1, mapLookup_mapInsert]
    have hmem1 : ∀ b ∈ rest, b ∈ indeg1.map Prod.fst := by
      intro b hb; rw [hkeys1]; exact hmem b (List.mem_cons_of_mem nb hb)
    have hcnt1 : ∀ x v, mapLookup indeg1 x = some v → rest.count x ≤ v := by
      intro x v hv
      rw [hlook1 x] at hv
      by_cases hx : x = nb
      · rw [if_pos hx] at hv
        have hv' : deg - 1 = v := by injection hv
        have h4 : (nb :: rest).count x = (nb :: rest).count nb := by rw [hx]
        have h6 : rest.count x = rest.count nb := by rw [hx]
        omega
      · rw [if_neg hx] at hv
        have h1 := hcnt x v hv
        have h2 : (nb :: rest).count x = rest.count x := by
          simp [count_cons_eq, hx]
        omega
    obtain ⟨indeg', pushed, hrun, hkeys, hlook, hpush_sub, hpush_nd, hpush_iff⟩ :=
      ih indeg1 hmem1 hcnt1
    refine ⟨indeg', (if deg - 1 = 0 then nb :: pushed else pushed),
      ?_, ?_, ?_, ?_, ?_, ?_⟩
    · show decNeighbors (nb :: rest) indeg = _
      simp only [decNeighbors, hdeg, ← hindeg1, hrun]
    · rw [hkeys, hkeys1]
    · intro x v hv
      by_cases hx : x = nb
      · have hveq : deg = v := by
          rw [hx, hdeg] at hv; injection hv
        have h1 : mapLookup indeg1 x = some (deg - 1) := by
          rw [hlook1, if_pos hx]
        have h2 := hlook x (deg - 1) h1
        rw [h2]
        congr 1
        have h4 : (nb :: rest).count x = rest.count x + 1 := by
          simp [count_cons_eq, hx]
        omega
      · have h1 : mapLookup indeg1 x = some v := by
          rw [hlook1, if_neg hx, hv]
        have h2 := hlook x v h1
        rw [h2]
        congr 1
        have h4 : (nb :: rest).count x = rest.count x := by
          simp [count_cons_eq, hx]
        omega
    · intro x hx
      by_cases hz : deg - 1 = 0
      · rw [if_pos hz] at hx
        rcases List.mem_cons.mp hx with h | h
        · rw [h]; exact List.mem_cons_self nb rest
        · exact List.mem_cons_of_mem nb (hpush_sub x h)
      · rw [if_neg hz] at hx
        exact List.mem_cons_of_mem nb (hpush_sub x hx)
    · by_cases hz : deg - 1 = 0
      · rw [if_pos hz]
        refine List.nodup_cons.mpr ⟨?_, hpush_nd⟩
        intro hnbp
        have h1 : mapLookup indeg1 nb = some (deg - 1) := by
          rw [hlook1, if_pos rfl]
        obtain ⟨hmem2, hceq⟩ := (hpush_iff nb (deg - 1) h1).mp hnbp
        have hpos : rest.count nb ≠ 0 := fun h0 =>
          (List.count_eq_zero.mp h0) hmem2
        omega
      · rw [if_neg hz]; exact hpush_nd
    · intro x v hv
      by_cases hx : x = nb
      · have hveq : deg = v := by
          rw [hx, hdeg] at hv; injection hv
        rw [hx]
        have h1 : mapLookup indeg1 nb = some (deg - 1) := by
          rw [hlook1, if_pos rfl]
        have hiff := hpush_iff nb (deg - 1) h1
        have hle : rest.count nb + 1 ≤ deg := by omega
        constructor
        · intro hp
          refine ⟨List.mem_cons_self nb rest, ?_⟩
          by_cases hz : deg - 1 = 0
          · omega
          · have hp' : nb ∈ pushed := by rw [if_neg hz] at hp; exact hp
            obtain ⟨_, hceq⟩ := hiff.mp hp'
            omega
        · rintro ⟨_, hveq2⟩
          by_cases hz : deg - 1 = 0
          · rw [if_pos hz]; exact List.mem_cons_self nb pushed
          · rw [if_neg hz]
            have hxr : nb ∈ rest := by
              by_contra hnx
              have h0 : rest.count nb = 0 := List.count_eq_zero.mpr hnx
              omega
            exact hiff.mpr ⟨hxr, by omega⟩
      · have h1 : mapLookup indeg1 x = some v := by
          rw [hlook1, if_neg hx, hv]
        have hiff := hpush_iff x v h1
        have hcc : (nb :: rest).count x = rest.count x := by
          simp [count_cons_eq, hx]
        constructor
        · intro hp
          have hp' : x ∈ pushed := by
            by_cases hz : deg - 1 = 0
            · rw [if_pos hz] at hp
              rcases List.mem_cons.mp hp with h | h
              · exact absurd h hx
              · exact h
            · rw [if_neg hz] at hp; exact hp
          obtain ⟨hm, hc⟩ := hiff.mp hp'
          exact ⟨List.mem_cons_of_mem nb hm, by omega⟩
        · rintro ⟨hxm, hveq2⟩
          have hxr : x ∈ rest := by
            rcases List.mem_cons.mp hxm with h | h
            · exact absurd h hx
            · exact h
          have hp' : x ∈ pushed := hiff.mpr ⟨hxr, by omega⟩
          by_cases hz : deg - 1 = 0
          · rw [if_pos hz]; exact List.mem_cons_of_mem nb hp'
          · rw [if_neg hz]; exact hp'

/-- A value satisfying the predicate occurs at most as often as the
predicate holds. -/
theorem count_le_countP (l : List String) (a : String) (p : String → Bool)
    (h : p a = true) : l.count a ≤ l.countP p := by
  induction l with
  | nil => simp
  | cons d t ih =>
    rw [count_cons_eq, List.countP_cons]
    by_cases hd : a = d
    · rw [if_pos hd, ← hd, h, if_pos rfl]
      omega
    · rw [if_neg hd]
      by_cases hp : p d = true
      · rw [if_pos hp]; omega
      · rw [if_neg hp]; omega

/-- Splitting the not-yet-emitted count at a freshly emitted node. -/
theorem countP_erase_node (res : List String) (node : String)
    (hres : node ∉ res) :
    ∀ l : List String, l.countP (fun d => decide (d ∉ res)) =
      l.countP (fun d => decide (d ∉ res ++ [node])) + l.count node := by
  intro l
  induction l with
  | nil => simp
  | cons d t ih =>
    by_cases hd : d = node
    · have h1 : (d :: t).countP (fun d => decide (d ∉ res)) =
          t.countP (fun d => decide (d ∉ res)) + 1 := by
        rw [List.countP_cons]
        congr 1
        rw [hd]
        simp [hres]
      have h2 : (d :: t).countP (fun d => decide (d ∉ res ++ [node])) =
          t.countP (fun d => decide (d ∉ res ++ [node])) := by
        rw [List.countP_cons, hd]
        simp
      have h3 : (d :: t).count node = t.count node + 1 := by
        rw [count_cons_eq, if_pos hd.symm]
      omega
    · have h1 : (d :: t).countP (fun d => decide (d ∉ res)) =
          t.countP (fun d => decide (d ∉ res)) + (if d ∈ res then 0 else 1) := by
        rw [List.countP_cons]
        by_cases hm : d ∈ res
        · simp [hm]
        · simp [hm]
      have h2 : (d :: t).countP (fun d => decide (d ∉ res ++ [node])) =
          t.countP (fun d => decide (d ∉ res ++ [node])) + (if d ∈ res then 0 else 1) := by
        rw [List.countP_cons]
        by_cases hm : d ∈ res
        · simp [hm]
        · simp [hm, hd]
      have h3 : (d :: t).count node = t.count node := by
        rw [count_cons_eq, if_neg (fun h => hd h.symm)]
        omega
      omega

/-- When the not-yet-emitted count collapses to the count of one node,
that node is the only not-yet-emitted element. -/
theorem countP_eq_count_imp (res : List String) (node : String)
    (hres : node ∉ res) :
    ∀ l : List String, l.countP (fun d => decide (d ∉ res)) = l.count node →
      ∀ d ∈ l, d ∉ res → d = node := by
  intro l
  induction l with
  | nil => intro _ d hd; simp at hd
  | cons e t ih =>
    intro heq d hd hdres
    have hle : t.count node ≤ t.countP (fun d => decide (d ∉ res)) :=
      count_le_countP t node _ (decide_eq_true hres)
    by_cases he : e ∈ res
    · have h1 : (e :: t).countP (fun d => decide (d ∉ res)) =
          t.countP (fun d => decide (d ∉ res)) := by
        rw [List.countP_cons]; simp [he]
      have hene : e ≠ node := fun h => hres (h ▸ he)
      have h3 : (e :: t).count node = t.count node := by
        rw [count_cons_eq, if_neg (fun h => hene h.symm)]
        omega
      rcases List.mem_cons.mp hd with h | h
      · exact absurd he (h ▸ hdres)
      · exact ih (by omega) d h hdres
    · have h1 : (e :: t).countP (fun d => decide (d ∉ res)) =
          t.countP (fun d => decide (d ∉ res)) + 1 := by
        rw [List.countP_cons]; simp [he]
      by_cases hen : e = node
      · have h3 : (e :: t).count node = t.count node + 1 := by
          rw [count_cons_eq, if_pos hen.symm]
        rcases List.mem_cons.mp hd with h | h
        · rw [h, hen]
        · exact ih (by omega) d h hdres
      · have h3 : (e :: t).count node = t.count node := by
          rw [count_cons_eq, if_neg (fun h => hen h.symm)]
          omega
        omega

/-- Positional lookup on the left of an append. -/
theorem getElem?_append_left2 {α : Type _} (l1 l2 : List α) (k : Nat)
    (h : k < l1.length) : (l1 ++ l2)[k]? = l1[k]? := by
  rw [List.getElem?_append]
  exact if_pos h

/-- Positional lookup of a freshly appended element. -/
theorem getElem?_append_length_singleton {α : Type _} (l1 : List α) (x : α) :
    (l1 ++ [x])[l1.length]? = some x := by
  rw [List.getElem?_append, if_neg (by omega)]
  simp

/-- On a duplicate-free key list, membership determines the lookup. -/
theorem mapLookup_of_mem_nodup {κ α : Type _} [DecidableEq κ] :
    ∀ (m : List (κ × α)), (m.map Prod.fst).Nodup → ∀ k v, (k, v) ∈ m →
      mapLookup m k = some v := by
  intro m
  induction m with
  | nil => intro _ k v h; simp at h
  | cons p rest ih =>
    intro hnd k v h
    obtain ⟨k0, v0⟩ := p
    rw [List.map_cons] at hnd
    have hnd2 := List.nodup_cons.mp hnd
    rcases List.mem_cons.mp h with h1 | h1
    · injection h1 with hk hv
      show (if k0 = k then some v0 else mapLookup rest k) = some v
      rw [if_pos hk.symm, hv]
    · show (if k0 = k then some v0 else mapLookup rest k) = some v
      have hkk : k0 ≠ k := by
        intro he
        apply hnd2.1
        rw [he]
        exact List.mem_map.mpr ⟨(k, v), h1, rfl⟩
      rw [if_neg hkk]
      exact ih hnd2.2 k v h1

/-- A successful lookup exhibits a binding. -/
theorem mem_of_mapLookup {κ α : Type _} [DecidableEq κ] :
    ∀ (m : List (κ × α)) (k : κ) (v : α), mapLookup m k = some v → (k, v) ∈ m := by
  intro m
  induction m with
  | nil => intro k v h; simp [mapLookup] at h
  | cons p rest ih =>
    intro k v h
    obtain ⟨k0, v0⟩ := p
    by_cases hk : k0 = k
    · rw [show mapLookup ((k0, v0) :: rest) k =
          if k0 = k then some v0 else mapLookup rest k from rfl, if_pos hk] at h
      injection h with hv
      rw [hk, ← hv]
      exact List.mem_cons_self _ _
    · rw [show mapLookup ((k0, v0) :: rest) k =
          if k0 = k then some v0 else mapLookup rest k from rfl, if_neg hk] at h
      exact List.mem_cons_of_mem _ (ih k v h)

/-- A duplicate-free list included in another is no longer than it. -/
theorem length_le_of_nodup_subset (l names : List String) (hnd : l.Nodup)
    (hsub : ∀ x ∈ l, x ∈ names) : l.length ≤ names.length := by
  have h1 : l.toFinset.card = l.length := List.toFinset_card_of_nodup hnd
  have h2 : l.toFinset ⊆ names.toFinset := by
    intro x hx
    rw [List.mem_toFinset] at hx ⊢
    exact hsub x hx
  have h3 : names.toFinset.card ≤ names.length := names.toFinset_card_le
  have h4 := Finset.card_le_card h2
  omega

/-- A duplicate-free sublist of maximal length exhausts its superset. -/
theorem mem_of_nodup_subset_full (l names : List String) (hnd : l.Nodup)
    (hndn : names.Nodup) (hsub : ∀ x ∈ l, x ∈ names)
    (hlen : names.length ≤ l.length) : ∀ x ∈ names, x ∈ l := by
  have h1 : l.toFinset.card = l.length := List.toFinset_card_of_nodup hnd
  have h1n : names.toFinset.card = names.length := List.toFinset_card_of_nodup hndn
  have h2 : l.toFinset ⊆ names.toFinset := by
    intro x hx
    rw [List.mem_toFinset] at hx ⊢
    exact hsub x hx
  have h4 : names.toFinset.card ≤ l.toFinset.card := by omega
  have h5 := Finset.eq_of_subset_of_card_le h2 h4
  intro x hx
  have h6 : x ∈ names.toFinset := List.mem_toFinset.mpr hx
  rw [← h5] at h6
  exact List.mem_toFinset.mp h6

/-- Elimination of a successful edge-insertion pass (`addEdges`): every
dependency target is registered, the adjacency keys are unchanged, and
each target's dependent list gains one `layer` entry per occurrence. -/
theorem addEdges_ok_elim :
    ∀ (deps : List String) (layer : String) (names : List String)
      (graph graph' : List (String × List String)),
      graph.map Prod.fst = names →
      addEdges layer deps names graph = .ok graph' →
      (∀ d ∈ deps, d ∈ names) ∧
      graph'.map Prod.fst = names ∧
      (∀ a b, ((mapLookup graph' a).getD []).count b =
        ((mapLookup graph a).getD []).count b +
          (if b = layer then deps.count a else 0)) ∧
      (∀ a b, b ∈ (mapLookup graph' a).getD [] →
        b ∈ (mapLookup graph a).getD [] ∨ b = layer) := by
  intro deps
  induction deps with
  | nil =>
    intro layer names graph graph' hkeys hok
    have hgg : graph = graph' := by simpa [addEdges] using hok
    subst hgg
    refine ⟨by intro d hd; simp at hd, hkeys, ?_, ?_⟩
    · intro a b; simp
    · intro a b h; exact Or.inl h
  | cons dep rest ih =>
    intro layer names graph graph' hkeys hok
    by_cases hd : dep ∈ names
    · have hdk : dep ∈ graph.map Prod.fst := by rw [hkeys]; exact hd
      obtain ⟨dependents, hdep⟩ := Option.isSome_iff_exists.mp
        ((mapLookup_isSome_iff graph dep).mpr hdk)
      have hok2 : addEdges layer rest names
          (mapInsert graph dep (dependents ++ [layer])) = .ok graph' := by
        simpa [addEdges, hd, hdep] using hok
      set graph1 := mapInsert graph dep (dependents ++ [layer]) with hg1
      have hkeys1 : graph1.map Prod.fst = names := by
        rw [hg1, mapInsert_keys, if_pos hdk, hkeys]
      obtain ⟨hval, hkeys2, hcount, hmem⟩ := ih layer names graph1 graph' hkeys1 hok2
      have hlook1 : ∀ a, mapLookup graph1 a =
          if a = dep then some (dependents ++ [layer]) else mapLookup graph a := by
        intro a; rw [hg1, mapLookup_mapInsert]
      refine ⟨?_, hkeys2, ?_, ?_⟩
      · intro d hdm
        rcases List.mem_cons.mp hdm with h | h
        · rw [h]; exact hd
        · exact hval d h
      · intro a b
        have h1 := hcount a b
        by_cases ha : a = dep
        · have h2 : ((mapLookup graph1 a).getD []).count b =
              ((mapLookup graph a).getD []).count b + (if b = layer then 1 else 0) := by
            rw [hlook1 a, if_pos ha, ha, hdep]
            simp [List.count_append, count_cons_eq]
          have h3 : (dep :: rest).count a = rest.count a + 1 := by
            rw [count_cons_eq, if_pos ha]
          by_cases hb : b = layer
          · rw [if_pos hb] at h1 h2
            rw [if_pos hb, h3]
            omega
          · rw [if_neg hb] at h1 h2
            rw [if_neg hb]
            omega
        · have h2 : ((mapLookup graph1 a).getD []).count b =
              ((mapLookup graph a).getD []).count b := by
            rw [hlook1 a, if_neg ha]
          have h3 : (dep :: rest).count a = rest.count a := by
            rw [count_cons_eq, if_neg ha]
            omega
          by_cases hb : b = layer
          · rw [if_pos hb] at h1
            rw [if_pos hb, h3]
            omega
          · rw [if_neg hb] at h1
            rw [if_neg hb]
            omega
      · intro a b hbm
        rcases hmem a b hbm with h | h
        · rw [hlook1 a] at h
          by_cases ha : a = dep
          · rw [if_pos ha] at h
            simp at h
            rcases h with h2 | h2
            · left
              rw [ha, hdep]
              simpa using h2
            · right; exact h2
          · rw [if_neg ha] at h
            exact Or.inl h
        · exact Or.inr h
    · have hfail : addEdges layer (dep :: rest) names graph =
          .error (.LayerNotFound dep) := by
        simp [addEdges, hd]
      rw [hfail] at hok
      cases hok

/-- The edge-insertion pass succeeds when every target is registered. -/
theorem addEdges_ok_exists :
    ∀ (deps : List String) (layer : String) (names : List String)
      (graph : List (String × List String)),
      graph.map Prod.fst = names →
      (∀ d ∈ deps, d ∈ names) →
      ∃ graph', addEdges layer deps names graph = .ok graph' := by
  intro deps
  induction deps with
  | nil => intro layer names graph _ _; exact ⟨graph, rfl⟩
  | cons dep rest ih =>
    intro layer names graph hkeys hval
    have hd : dep ∈ names := hval dep (List.mem_cons_self _ _)
    have hdk : dep ∈ graph.map Prod.fst := by rw [hkeys]; exact hd
    obtain ⟨dependents, hdep⟩ := Option.isSome_iff_exists.mp
      ((mapLookup_isSome_iff graph dep).mpr hdk)
    have hkeys1 : (mapInsert graph dep (dependents ++ [layer])).map Prod.fst = names := by
      rw [mapInsert_keys, if_pos hdk, hkeys]
    obtain ⟨graph', hg⟩ := ih layer names _ hkeys1
      (fun d hdm => hval d (List.mem_cons_of_mem _ hdm))
    refine ⟨graph', ?_⟩
    simp [addEdges, hd, hdep, hg]

/-- Elimination of a successful in-degree initialization: every declaring
layer and every target is registered, the key lists are unchanged, each
declaring layer's in-degree is its dependency count, and the adjacency
lists record exactly the declared edges. -/
theorem initDegrees_ok_elim :
    ∀ (entries : List (String × List String)) (names : List String)
      (indeg : List (String × Nat)) (graph : List (String × List String))
      (indeg2 : List (String × Nat)) (graph2 : List (String × List String)),
      (entries.map Prod.fst).Nodup →
      indeg.map Prod.fst = names →
      graph.map Prod.fst = names →
      initDegrees entries names indeg graph = .ok (indeg2, graph2) →
      (∀ p ∈ entries, p.1 ∈ names ∧ ∀ d ∈ p.2, d ∈ names) ∧
      indeg2.map Prod.fst = names ∧
      graph2.map Prod.fst = names ∧
      (∀ x, mapLookup indeg2 x =
        match mapLookup entries x with
        | some ds => some ds.length
        | none => mapLookup indeg x) ∧
      (∀ a b, ((mapLookup graph2 a).getD []).count b =
        ((mapLookup graph a).getD []).count b +
          ((mapLookup entries b).getD []).count a) ∧
      (∀ a b, b ∈ (mapLookup graph2 a).getD [] →
        b ∈ (mapLookup graph a).getD [] ∨ b ∈ entries.map Prod.fst) := by
  intro entries
  induction entries with
  | nil =>
    intro names indeg graph indeg2 graph2 _ hki hkg hok
    have hpair : indeg = indeg2 ∧ graph = graph2 := by
      simpa [initDegrees] using hok
    obtain ⟨h1, h2⟩ := hpair
    subst h1; subst h2
    refine ⟨by intro p hp; simp at hp, hki, hkg, ?_, ?_, ?_⟩
    · intro x; rfl
    · intro a b; simp [mapLookup]
    · intro a b h; exact Or.inl h
  | cons p restE ih =>
    intro names indeg graph indeg2 graph2 hnd hki hkg hok
    obtain ⟨layer, ds⟩ := p
    rw [List.map_cons] at hnd
    have hnd2 := List.nodup_cons.mp hnd
    by_cases hl : layer ∈ names
    · cases haE : addEdges layer ds names graph with
      | error e =>
        rw [show initDegrees ((layer, ds) :: restE) names indeg graph =
            (if layer ∈ names then
              match addEdges layer ds names graph with
              | .error e => .err e
              | .ok graph1 => initDegrees restE names
                  (mapInsert indeg layer ds.length) graph1
            else .panicked "called Option::unwrap on a None value") from rfl,
          if_pos hl, haE] at hok
        cases hok
      | ok graph1 =>
        have hok2 : initDegrees restE names
            (mapInsert indeg layer ds.length) graph1 = .ok (indeg2, graph2) := by
          rw [show initDegrees ((layer, ds) :: restE) names indeg graph =
              (if layer ∈ names then
                match addEdges layer ds names graph with
                | .error e => .err e
                | .ok graph1 => initDegrees restE names
                    (mapInsert indeg layer ds.length) graph1
              else .panicked "called Option::unwrap on a None value") from rfl,
            if_pos hl, haE] at hok
          exact hok
        obtain ⟨hvals, hkeysg1, hcountE, hmemE⟩ := addEdges_ok_elim ds layer names
          graph graph1 hkg haE
        have hlk : layer ∈ indeg.map Prod.fst := by rw [hki]; exact hl
        have hki1 : (mapInsert indeg layer ds.length).map Prod.fst = names := by
          rw [mapInsert_keys, if_pos hlk, hki]
        obtain ⟨hrest, hki2, hkg2, hlook, hcount, hmem⟩ := ih names
          (mapInsert indeg layer ds.length) graph1 indeg2 graph2 hnd2.2 hki1 hkeysg1 hok2
        have hscl : ∀ x, mapLookup ((layer, ds) :: restE) x =
            if layer = x then some ds else mapLookup restE x := fun _ => rfl
        refine ⟨?_, hki2, hkg2, ?_, ?_, ?_⟩
        · intro q hq
          rcases List.mem_cons.mp hq with h | h
          · rw [h]; exact ⟨hl, hvals⟩
          · exact hrest q h
        · intro x
          have hIH := hlook x
          have hm1 : mapLookup (mapInsert indeg layer ds.length) x =
              if x = layer then some ds.length else mapLookup indeg x :=
            mapLookup_mapInsert indeg layer x ds.length
          by_cases hx : layer = x
          · have hrn : mapLookup restE x = none := by
              apply mapLookup_eq_none_of_not_mem_keys
              rw [← hx]
              exact hnd2.1
            rw [hrn] at hIH
            rw [hscl x, if_pos hx]
            rw [hIH, hm1, if_pos hx.symm]
          · rw [hscl x, if_neg hx]
            rw [hIH]
            cases hr : mapLookup restE x with
            | some ds2 => rfl
            | none =>
              show mapLookup (mapInsert indeg layer ds.length) x = mapLookup indeg x
              rw [hm1, if_neg (fun h => hx h.symm)]
        · intro a b
          have h1 := hcount a b
          have h2 := hcountE a b
          by_cases hb : layer = b
          · have hrn : mapLookup restE b = none := by
              apply mapLookup_eq_none_of_not_mem_keys
              rw [← hb]
              exact hnd2.1
            rw [hrn] at h1
            rw [hscl b, if_pos hb]
            rw [if_pos hb.symm] at h2
            simp only [Option.getD_some, Option.getD_none, List.count_nil] at h1 ⊢
            omega
          · rw [hscl b, if_neg hb]
            rw [if_neg (fun h => hb h.symm)] at h2
            omega
        · intro a b hbm
          rcases hmem a b hbm with h | h
          · rcases hmemE a b h with h2 | h2
            · exact Or.inl h2
            · right
              rw [h2]
              simp
          · right
            simp only [List.map_cons]
            exact List.mem_cons_of_mem _ h
    · rw [show initDegrees ((layer, ds) :: restE) names indeg graph =
          (if layer ∈ names then
            match addEdges layer ds names graph with
            | .error e => .err e
            | .ok graph1 => initDegrees restE names
                (mapInsert indeg layer ds.length) graph1
          else .panicked "called Option::unwrap on a None value") from rfl,
        if_neg hl] at hok
      cases hok

/-- The in-degree initialization succeeds on well-formed dependencies. -/
theorem initDegrees_ok_exists :
    ∀ (entries : List (String × List String)) (names : List String)
      (indeg : List (String × Nat)) (graph : List (String × List String)),
      indeg.map Prod.fst = names →
      graph.map Prod.fst = names →
      (∀ p ∈ entries, p.1 ∈ names ∧ ∀ d ∈ p.2, d ∈ names) →
      ∃ indeg2 graph2,
        initDegrees entries names indeg graph = .ok (indeg2, graph2) := by
  intro entries
  induction entries with
  | nil => intro names indeg graph _ _ _; exact ⟨indeg, graph, rfl⟩
  | cons p restE ih =>
    intro names indeg graph hki hkg hwf
    obtain ⟨layer, ds⟩ := p
    have hl : layer ∈ names := (hwf (layer, ds) (List.mem_cons_self _ _)).1
    have hvals : ∀ d ∈ ds, d ∈ names := (hwf (layer, ds) (List.mem_cons_self _ _)).2
    obtain ⟨graph1, hg1⟩ := addEdges_ok_exists ds layer names graph hkg hvals
    obtain ⟨hvals2, hkeysg1, _, _⟩ := addEdges_ok_elim ds layer names graph graph1 hkg hg1
    have hlk : layer ∈ indeg.map Prod.fst := by rw [hki]; exact hl
    have hki1 : (mapInsert indeg layer ds.length).map Prod.fst = names := by
      rw [mapInsert_keys, if_pos hlk, hki]
    obtain ⟨indeg2, graph2, hrec⟩ := ih names (mapInsert indeg layer ds.length) graph1
      hki1 hkeysg1 (fun q hq => hwf q (List.mem_cons_of_mem _ hq))
    refine ⟨indeg2, graph2, ?_⟩
    rw [show initDegrees ((layer, ds) :: restE) names indeg graph =
        (if layer ∈ names then
          match addEdges layer ds names graph with
          | .error e => .err e
          | .ok graph1 => initDegrees restE names
              (mapInsert indeg layer ds.length) graph1
        else .panicked "called Option::unwrap on a None value") from rfl,
      if_pos hl, hg1]
    exact hrec

/-- Lookup in a constant-valued map built from a name list. -/
theorem mapLookup_map_const {α : Type _} (names : List String) (c : α) (x : String) :
    mapLookup (names.map (fun n => (n, c))) x = if x ∈ names then some c else none := by
  induction names with
  | nil => simp [mapLookup]
  | cons n t ih =>
    show (if n = x then some c else mapLookup (t.map fun n => (n, c)) x) = _
    by_cases hx : n = x
    · rw [if_pos hx, if_pos (by rw [← hx]; exact List.mem_cons_self _ _)]
    · rw [if_neg hx, ih]
      by_cases hm : x ∈ t
      · rw [if_pos hm, if_pos (List.mem_cons_of_mem _ hm)]
      · rw [if_neg hm, if_neg (by
          intro h
          rcases List.mem_cons.mp h with h1 | h1
          · exact hx h1.symm
          · exact hm h1)]

/-- `Engine.topological_sort`, unfolded. -/
theorem topological_sort_eq (E : Engine) :
    E.topological_sort =
      (match initDegrees E.dependencies E.layerNames
          (E.layerNames.map (fun n => (n, 0)))
          (E.layerNames.map (fun n => (n, ([] : List String)))) with
      | .panicked m => .panicked m
      | .err e => .err e
      | .ok (indeg, graph) =>
        match kahnLoop graph (E.layerNames.length + 1) indeg
            ((indeg.filter (fun p => p.2 = 0)).map Prod.fst) [] with
        | .err e => .err e
        | .panicked m => .panicked m
        | .ok result =>
          if result.length ≠ E.layerNames.length then
            .err (.ConfigError "Circular dependency detected in layers")
          else
            match E.init_layer with
            | some init_name => .ok (init_name :: result.filter (fun n => n ≠ init_name))
            | none => .ok result) := rfl

/-- The Kahn loop invariant: starting from a state where the tracked
in-degrees count the not-yet-emitted dependencies, the emitted prefix is
duplicate-free and dependency-sorted, and every queued node is ready, the
loop succeeds and its full output is duplicate-free, drawn from the
registered names and dependency-sorted. -/
theorem kahnLoop_invariant
    (names : List String) (graph : List (String × List String))
    (D : String → List String)
    (hgkeys : graph.map Prod.fst = names)
    (hgcount : ∀ a b, a ∈ names →
      ((mapLookup graph a).getD []).count b = (D b).count a)
    (hgmem : ∀ a b, b ∈ (mapLookup graph a).getD [] → b ∈ names) :
    ∀ (fuel : Nat) (indeg : List (String × Nat)) (queue result : List String),
      indeg.map Prod.fst = names →
      (∀ x v, mapLookup indeg x = some v →
        v = (D x).countP (fun d => decide (d ∉ result))) →
      (result ++ queue).Nodup →
      (∀ x, x ∈ result ++ queue → x ∈ names) →
      (∀ x ∈ queue, ∀ d ∈ D x, d ∈ result) →
      (∀ (k : Nat) (x : String), result[k]? = some x → ∀ d ∈ D x,
        ∃ k2 : Nat, k2 < k ∧ result[k2]? = some d) →
      names.length < fuel + result.length →
      ∃ res, kahnLoop graph fuel indeg queue result = .ok res ∧
        res.Nodup ∧
        (∀ x ∈ res, x ∈ names) ∧
        (∀ (k : Nat) (x : String), res[k]? = some x → ∀ d ∈ D x,
          ∃ k2 : Nat, k2 < k ∧ res[k2]? = some d) := by
  intro fuel
  induction fuel with
  | zero =>
    intro indeg queue result _ _ hqr hsub _ _ hfuel
    exfalso
    have h1 : result.Nodup := (List.nodup_append.mp hqr).1
    have h2 : ∀ x ∈ result, x ∈ names := fun x hx =>
      hsub x (List.mem_append.mpr (Or.inl hx))
    have := length_le_of_nodup_subset result names h1 h2
    omega
  | succ fuel ih =>
    intro indeg queue result hikeys hideg hqr hsub hready hsorted hfuel
    cases queue with
    | nil =>
      refine ⟨result, rfl, ?_, ?_, hsorted⟩
      · simpa using hqr
      · intro x hx; exact hsub x (by simpa using hx)
    | cons node rest =>
      have hnoden : node ∈ names := hsub node
        (List.mem_append.mpr (Or.inr (List.mem_cons_self _ _)))
      have hnodeg : node ∈ graph.map Prod.fst := by rw [hgkeys]; exact hnoden
      obtain ⟨neighbors, hnbr⟩ := Option.isSome_iff_exists.mp
        ((mapLookup_isSome_iff graph node).mpr hnodeg)
      have hsplit := List.nodup_append.mp hqr
      have hnode_nr : node ∉ result := fun hmem =>
        hsplit.2.2 hmem (List.mem_cons_self _ _)
      have hndr : result.Nodup := hsplit.1
      have hndq : (node :: rest).Nodup := hsplit.2.1
      have hdisj : ∀ a, a ∈ result → a ∉ node :: rest := fun a ha hb =>
        hsplit.2.2 ha hb
      have hnode_rest : node ∉ rest := (List.nodup_cons.mp hndq).1
      have hndrest : rest.Nodup := (List.nodup_cons.mp hndq).2
      have hcountn : ∀ x, neighbors.count x = (D x).count node := by
        intro x
        have h := hgcount node x hnoden
        rw [hnbr] at h
        simpa using h
      have hnmem : ∀ b ∈ neighbors, b ∈ indeg.map Prod.fst := by
        intro b hb
        rw [hikeys]
        refine hgmem node b ?_
        rw [hnbr]; simpa using hb
      have hncnt : ∀ x v, mapLookup indeg x = some v → neighbors.count x ≤ v := by
        intro x v hv
        rw [hideg x v hv, hcountn x]
        exact count_le_countP _ _ _ (decide_eq_true hnode_nr)
      obtain ⟨indeg2, pushed, hdec, hdkeys, hdlook, hdsub, hdnd, hdiff⟩ :=
        decNeighbors_spec neighbors indeg hnmem hncnt
      have hnb_mem : ∀ x, x ∈ neighbors → node ∈ D x := by
        intro x hx
        have h1 : neighbors.count x ≠ 0 := fun h0 => (List.count_eq_zero.mp h0) hx
        have h2 : (D x).count node ≠ 0 := by
          have := hcountn x
          omega
        by_contra hn
        exact h2 (List.count_eq_zero.mpr hn)
      have hlookup_ex : ∀ x, x ∈ names → ∃ v, mapLookup indeg x = some v := by
        intro x hx
        have hxk : x ∈ indeg.map Prod.fst := by rw [hikeys]; exact hx
        exact Option.isSome_iff_exists.mp ((mapLookup_isSome_iff indeg x).mpr hxk)
      have hpush_names : ∀ x ∈ pushed, x ∈ names := by
        intro x hx
        refine hgmem node x ?_
        rw [hnbr]
        simpa using hdsub x hx
      have hpush_char : ∀ x ∈ pushed,
          (D x).countP (fun d => decide (d ∉ result)) = (D x).count node ∧
            node ∈ D x := by
        intro x hx
        have hxn : x ∈ neighbors := hdsub x hx
        obtain ⟨v, hv⟩ := hlookup_ex x (hpush_names x hx)
        have hveq := hideg x v hv
        obtain ⟨_, hvc⟩ := (hdiff x v hv).mp hx
        have hc := hcountn x
        exact ⟨by omega, hnb_mem x hxn⟩
      have hres_mem_D_sub : ∀ x ∈ result, ∀ d ∈ D x, d ∈ result := by
        intro x hx d hd
        obtain ⟨k, hk⟩ := mem_exists_getElem? result x hx
        obtain ⟨k2, _, hk2⟩ := hsorted k x hk d hd
        obtain ⟨hlt, he⟩ := getElem?_some_elim hk2
        exact he ▸ List.getElem_mem hlt
      have hpush_not_result : ∀ x ∈ pushed, x ∉ result := by
        intro x hx hxr
        obtain ⟨hcp, hnd2⟩ := hpush_char x hx
        have hall : ∀ d ∈ D x, d ∈ result := hres_mem_D_sub x hxr
        have h0 : (D x).countP (fun d => decide (d ∉ result)) = 0 := by
          rw [List.countP_eq_zero]
          intro d hd
          simpa using hall d hd
        have h1 : (D x).count node ≠ 0 :=
          fun h => (List.count_eq_zero.mp h) hnd2
        omega
      have hpush_not_queue : ∀ x ∈ pushed, x ∉ node :: rest := by
        intro x hx hxq
        obtain ⟨_, hnd2⟩ := hpush_char x hx
        exact hnode_nr (hready x hxq node hnd2)
      have hnode_pushed : node ∉ pushed := fun h =>
        hpush_not_queue node h (List.mem_cons_self _ _)
      have hikeys2 : indeg2.map Prod.fst = names := by rw [hdkeys, hikeys]
      have hideg2 : ∀ x v, mapLookup indeg2 x = some v →
          v = (D x).countP (fun d => decide (d ∉ result ++ [node])) := by
        intro x v2 hv2
        have hxk : x ∈ indeg.map Prod.fst := by
          rw [← hdkeys]
          exact (mapLookup_isSome_iff indeg2 x).mp (by rw [hv2]; rfl)
        obtain ⟨v, hv⟩ := Option.isSome_iff_exists.mp
          ((mapLookup_isSome_iff indeg x).mpr hxk)
        have h2 := hdlook x v hv
        rw [h2] at hv2
        have hveq : v2 = v - neighbors.count x := (Option.some.inj hv2).symm
        have h3 := hideg x v hv
        have hc := hcountn x
        have hsplitc := countP_erase_node result node hnode_nr (D x)
        omega
      have hqr2 : ((result ++ [node]) ++ (pushed.reverse ++ rest)).Nodup := by
        rw [List.nodup_append]
        refine ⟨?_, ?_, ?_⟩
        · rw [List.nodup_append]
          refine ⟨hndr, List.nodup_singleton node, ?_⟩
          intro a ha hb
          rw [List.mem_singleton] at hb
          exact hnode_nr (hb ▸ ha)
        · rw [List.nodup_append]
          refine ⟨List.nodup_reverse.mpr hdnd, hndrest, ?_⟩
          intro a ha hb
          rw [List.mem_reverse] at ha
          exact hpush_not_queue a ha (List.mem_cons_of_mem _ hb)
        · intro a ha hb
          rcases List.mem_append.mp ha with ha1 | ha1
          · rcases List.mem_append.mp hb with hb1 | hb1
            · exact hpush_not_result a (List.mem_reverse.mp hb1) ha1
            · exact hdisj a ha1 (List.mem_cons_of_mem _ hb1)
          · rw [List.mem_singleton] at ha1
            rcases List.mem_append.mp hb with hb1 | hb1
            · exact hnode_pushed (ha1 ▸ List.mem_reverse.mp hb1)
            · exact hnode_rest (ha1 ▸ hb1)
      have hsub2 : ∀ x, x ∈ (result ++ [node]) ++ (pushed.reverse ++ rest) →
          x ∈ names := by
        intro x hx
        rcases List.mem_append.mp hx with h | h
        · rcases List.mem_append.mp h with h1 | h1
          · exact hsub x (List.mem_append.mpr (Or.inl h1))
          · rw [List.mem_singleton] at h1
            exact h1 ▸ hnoden
        · rcases List.mem_append.mp h with h1 | h1
          · exact hpush_names x (List.mem_reverse.mp h1)
          · exact hsub x (List.mem_append.mpr (Or.inr (List.mem_cons_of_mem _ h1)))
      have hready2 : ∀ x ∈ pushed.reverse ++ rest, ∀ d ∈ D x,
          d ∈ result ++ [node] := by
        intro x hx d hd
        rcases List.mem_append.mp hx with h1 | h1
        · have hp := List.mem_reverse.mp h1
          obtain ⟨hcp, _⟩ := hpush_char x hp
          by_cases hdr : d ∈ result
          · exact List.mem_append.mpr (Or.inl hdr)
          · have hde := countP_eq_count_imp result node hnode_nr (D x) hcp d hd hdr
            rw [hde]
            simp
        · exact List.mem_append.mpr
            (Or.inl (hready x (List.mem_cons_of_mem _ h1) d hd))
      have hsorted2 : ∀ (k : Nat) (x : String), (result ++ [node])[k]? = some x →
          ∀ d ∈ D x, ∃ k2 : Nat, k2 < k ∧ (result ++ [node])[k2]? = some d := by
        intro k x hk d hd
        by_cases hkl : k < result.length
        · rw [getElem?_append_left2 _ _ _ hkl] at hk
          obtain ⟨k2, hk2lt, hk2⟩ := hsorted k x hk d hd
          obtain ⟨hk2l, _⟩ := getElem?_some_elim hk2
          exact ⟨k2, hk2lt, by
            rw [getElem?_append_left2 _ _ _ hk2l]
            exact hk2⟩
        · have hkk : k = result.length := by
            by_contra hne
            rw [List.getElem?_append, if_neg (by omega)] at hk
            rw [List.getElem?_eq_none (by
              show (([node] : List String)).length ≤ k - result.length
              simp
              omega)] at hk
            cases hk
          have hxnode : x = node := by
            rw [hkk, getElem?_append_length_singleton] at hk
            exact (Option.some.inj hk).symm
          have hdr : d ∈ result :=
            hready node (List.mem_cons_self _ _) d (hxnode ▸ hd)
          obtain ⟨k2, hk2⟩ := mem_exists_getElem? result d hdr
          obtain ⟨hk2l, _⟩ := getElem?_some_elim hk2
          refine ⟨k2, by omega, ?_⟩
          rw [getElem?_append_left2 _ _ _ hk2l]
          exact hk2
      have hlen2 : (result ++ [node]).length = result.length + 1 := by simp
      obtain ⟨res, hres, hrnd, hrsub, hrsort⟩ := ih indeg2 (pushed.reverse ++ rest)
        (result ++ [node]) hikeys2 hideg2 hqr2 hsub2 hready2 hsorted2 (by omega)
      refine ⟨res, ?_, hrnd, hrsub, hrsort⟩
      have hstep : kahnLoop graph (fuel + 1) indeg (node :: rest) result =
          kahnLoop graph fuel indeg2 (pushed.reverse ++ rest) (result ++ [node]) := by
        simp only [kahnLoop, hnbr, hdec]
      rw [hstep]
      exact hres

/-- Elimination of a successful topological sort: a successful run yields
the init-adjusted form of a raw order `res` that enumerates exactly the
registered layers, without duplicates, and lists every recorded dependency
of an element strictly before it; moreover the dependency map was
well-formed. -/
theorem topological_sort_ok_elim (E : Engine) (order : List String)
    (hLnd : E.layerNames.Nodup)
    (hDnd : (E.dependencies.map Prod.fst).Nodup)
    (hok : E.topological_sort = .ok order) :
    ∃ res : List String, res.Nodup ∧
      (∀ x ∈ res, x ∈ E.layerNames) ∧
      (∀ x ∈ E.layerNames, x ∈ res) ∧
      (∀ (k : Nat) (x : String), res[k]? = some x → ∀ d ∈ E.depsOf x,
        ∃ k2 : Nat, k2 < k ∧ res[k2]? = some d) ∧
      (∀ p ∈ E.dependencies, p.1 ∈ E.layerNames ∧ ∀ d ∈ p.2, d ∈ E.layerNames) ∧
      order = (match E.init_layer with
        | some init_name => init_name :: res.filter (fun n => n ≠ init_name)
        | none => res) := by
  rw [topological_sort_eq] at hok
  cases hID : initDegrees E.dependencies E.layerNames
      (E.layerNames.map (fun n => (n, 0)))
      (E.layerNames.map (fun n => (n, ([] : List String)))) with
  | panicked m => rw [hID] at hok; cases hok
  | err e => rw [hID] at hok; cases hok
  | ok pr =>
    obtain ⟨indeg, graph⟩ := pr
    rw [hID] at hok
    have hok2 : (match kahnLoop graph (E.layerNames.length + 1) indeg
        ((indeg.filter (fun p => p.2 = 0)).map Prod.fst) [] with
      | .err e => .err e
      | .panicked m => .panicked m
      | .ok result =>
        if result.length ≠ E.layerNames.length then
          Outcome.err (Err.ConfigError "Circular dependency detected in layers")
        else
          match E.init_layer with
          | some init_name => .ok (init_name :: result.filter (fun n => n ≠ init_name))
          | none => .ok result) = Outcome.ok order := hok
    have hkeys0i : (E.layerNames.map (fun n => (n, (0 : Nat)))).map Prod.fst =
        E.layerNames := by
      rw [List.map_map]
      exact List.map_id' E.layerNames
    have hkeys0g : (E.layerNames.map (fun n => (n, ([] : List String)))).map Prod.fst =
        E.layerNames := by
      rw [List.map_map]
      exact List.map_id' E.layerNames
    obtain ⟨hwf, hki, hkg, hlookI, hcountI, hmemI⟩ := initDegrees_ok_elim
      E.dependencies E.layerNames _ _ indeg graph hDnd hkeys0i hkeys0g hID
    have hgcount : ∀ a b, a ∈ E.layerNames →
        ((mapLookup graph a).getD []).count b = (E.depsOf b).count a := by
      intro a b ha
      have h := hcountI a b
      rw [mapLookup_map_const, if_pos ha] at h
      simpa [Engine.depsOf] using h
    have hgmem : ∀ a b, b ∈ (mapLookup graph a).getD [] → b ∈ E.layerNames := by
      intro a b hb
      rcases hmemI a b hb with h | h
      · exfalso
        rw [mapLookup_map_const] at h
        by_cases ha : a ∈ E.layerNames
        · rw [if_pos ha] at h; simp at h
        · rw [if_neg ha] at h; simp at h
      · obtain ⟨p, hp, hfst⟩ := List.mem_map.mp h
        have h2 := (hwf p hp).1
        rw [hfst] at h2
        exact h2
    have hcountP_full : ∀ x : String,
        (E.depsOf x).countP (fun d => decide (d ∉ ([] : List String))) =
          (E.depsOf x).length := by
      intro x
      apply List.countP_eq_length.mpr
      intro a _
      simp
    have hlook_char : ∀ x v, mapLookup indeg x = some v →
        v = (E.depsOf x).countP (fun d => decide (d ∉ ([] : List String))) := by
      intro x v hv
      have h := hlookI x
      rw [hv] at h
      rw [hcountP_full x]
      cases hd : mapLookup E.dependencies x with
      | some ds =>
        rw [hd] at h
        have h2 : v = ds.length := Option.some.inj h
        rw [h2]
        simp [Engine.depsOf, hd]
      | none =>
        rw [hd] at h
        rw [mapLookup_map_const] at h
        by_cases hx : x ∈ E.layerNames
        · rw [if_pos hx] at h
          have h2 : v = 0 := Option.some.inj h
          rw [h2]
          simp [Engine.depsOf, hd]
        · rw [if_neg hx] at h
          cases h
    have hkeysnd : (indeg.map Prod.fst).Nodup := by rw [hki]; exact hLnd
    have hqnd : ((indeg.filter (fun p => p.2 = 0)).map Prod.fst).Nodup := by
      have hs1 : List.Sublist (indeg.filter (fun p => decide (p.2 = 0))) indeg :=
        List.filter_sublist _
      exact List.Nodup.sublist (hs1.map Prod.fst) hkeysnd
    have hqsub : ∀ x ∈ (indeg.filter (fun p => p.2 = 0)).map Prod.fst,
        x ∈ E.layerNames := by
      intro x hx
      obtain ⟨p, hp, hfst⟩ := List.mem_map.mp hx
      have hp2 : p ∈ indeg := (List.mem_filter.mp hp).1
      rw [← hki, ← hfst]
      exact List.mem_map.mpr ⟨p, hp2, rfl⟩
    have hqready : ∀ x ∈ (indeg.filter (fun p => p.2 = 0)).map Prod.fst,
        ∀ d ∈ E.depsOf x, d ∈ ([] : List String) := by
      intro x hx d hd
      obtain ⟨p, hp, hfst⟩ := List.mem_map.mp hx
      obtain ⟨hp2, hp0⟩ := List.mem_filter.mp hp
      have hp0b : p.2 = 0 := by simpa using hp0
      have hlk : mapLookup indeg p.1 = some p.2 :=
        mapLookup_of_mem_nodup indeg hkeysnd p.1 p.2 hp2
      rw [hfst, hp0b] at hlk
      have h0 := hlook_char x 0 hlk
      rw [hcountP_full x] at h0
      have hnil : E.depsOf x = [] := List.length_eq_zero.mp h0.symm
      rw [hnil] at hd
      cases hd
    obtain ⟨res, hkahn, hrnd, hrsub, hrsort⟩ := kahnLoop_invariant E.layerNames graph
      E.depsOf hkg hgcount hgmem (E.layerNames.length + 1) indeg
      ((indeg.filter (fun p => p.2 = 0)).map Prod.fst) []
      hki hlook_char (by simpa using hqnd)
      (by intro x hx; exact hqsub x (by simpa using hx))
      hqready
      (by intro k x hk; simp at hk)
      (by simp only [List.length_nil, Nat.add_zero]; omega)
    rw [hkahn] at hok2
    have hok3 : (if res.length ≠ E.layerNames.length then
        Outcome.err (Err.ConfigError "Circular dependency detected in layers")
      else
        match E.init_layer with
        | some init_name =>
            Outcome.ok (init_name :: res.filter (fun n => n ≠ init_name))
        | none => Outcome.ok res) = Outcome.ok order := hok2
    by_cases hlen : res.length ≠ E.layerNames.length
    · rw [if_pos hlen] at hok3
      cases hok3
    · rw [if_neg hlen] at hok3
      have hlen2 : res.length = E.layerNames.length := by omega
      have hcomplete : ∀ x ∈ E.layerNames, x ∈ res :=
        mem_of_nodup_subset_full res E.layerNames hrnd hLnd hrsub (by omega)
      refine ⟨res, hrnd, hrsub, hcomplete, hrsort, hwf, ?_⟩
      cases hInitE : E.init_layer with
      | some init_name =>
        rw [hInitE] at hok3
        exact (Outcome.ok.inj hok3).symm
      | none =>
        rw [hInitE] at hok3
        exact (Outcome.ok.inj hok3).symm

/-- On a well-formed dependency map the sort never panics: it reaches the
completeness check with a duplicate-free, dependency-sorted raw order drawn
from the registered names. -/
theorem topological_sort_wf_run (E : Engine)
    (hLnd : E.layerNames.Nodup)
    (hDnd : (E.dependencies.map Prod.fst).Nodup)
    (hwf : ∀ p ∈ E.dependencies, p.1 ∈ E.layerNames ∧ ∀ d ∈ p.2, d ∈ E.layerNames) :
    ∃ res : List String, res.Nodup ∧
      (∀ x ∈ res, x ∈ E.layerNames) ∧
      (∀ (k : Nat) (x : String), res[k]? = some x → ∀ d ∈ E.depsOf x,
        ∃ k2 : Nat, k2 < k ∧ res[k2]? = some d) ∧
      E.topological_sort =
        (if res.length ≠ E.layerNames.length then
          .err (.ConfigError "Circular dependency detected in layers")
        else
          match E.init_layer with
          | some init_name => .ok (init_name :: res.filter (fun n => n ≠ init_name))
          | none => .ok res) := by
  have hkeys0i : (E.layerNames.map (fun n => (n, (0 : Nat)))).map Prod.fst =
      E.layerNames := by
    rw [List.map_map]
    exact List.map_id' E.layerNames
  have hkeys0g : (E.layerNames.map (fun n => (n, ([] : List String)))).map Prod.fst =
      E.layerNames := by
    rw [List.map_map]
    exact List.map_id' E.layerNames
  obtain ⟨indeg, graph, hID⟩ := initDegrees_ok_exists E.dependencies E.layerNames
    (E.layerNames.map (fun n => (n, 0)))
    (E.layerNames.map (fun n => (n, ([] : List String)))) hkeys0i hkeys0g hwf
  obtain ⟨_, hki, hkg, hlookI, hcountI, hmemI⟩ := initDegrees_ok_elim
    E.dependencies E.layerNames _ _ indeg graph hDnd hkeys0i hkeys0g hID
  have hgcount : ∀ a b, a ∈ E.layerNames →
      ((mapLookup graph a).getD []).count b = (E.depsOf b).count a := by
    intro a b ha
    have h := hcountI a b
    rw [mapLookup_map_const, if_pos ha] at h
    simpa [Engine.depsOf] using h
  have hgmem : ∀ a b, b ∈ (mapLookup graph a).getD [] → b ∈ E.layerNames := by
    intro a b hb
    rcases hmemI a b hb with h | h
    · exfalso
      rw [mapLookup_map_const] at h
      by_cases ha : a ∈ E.layerNames
      · rw [if_pos ha] at h; simp at h
      · rw [if_neg ha] at h; simp at h
    · obtain ⟨p, hp, hfst⟩ := List.mem_map.mp h
      have h2 := (hwf p hp).1
      rw [hfst] at h2
      exact h2
  have hcountP_full : ∀ x : String,
      (E.depsOf x).countP (fun d => decide (d ∉ ([] : List String))) =
        (E.depsOf x).length := by
    intro x
    apply List.countP_eq_length.mpr
    intro a _
    simp
  have hlook_char : ∀ x v, mapLookup indeg x = some v →
      v = (E.depsOf x).countP (fun d => decide (d ∉ ([] : List String))) := by
    intro x v hv
    have h := hlookI x
    rw [hv] at h
    rw [hcountP_full x]
    cases hd : mapLookup E.dependencies x with
    | some ds =>
      rw [hd] at h
      have h2 : v = ds.length := Option.some.inj h
      rw [h2]
      simp [Engine.depsOf, hd]
    | none =>
      rw [hd] at h
      rw [mapLookup_map_const] at h
      by_cases hx : x ∈ E.layerNames
      · rw [if_pos hx] at h
        have h2 : v = 0 := Option.some.inj h
        rw [h2]
        simp [Engine.depsOf, hd]
      · rw [if_neg hx] at h
        cases h
  have hkeysnd : (indeg.map Prod.fst).Nodup := by rw [hki]; exact hLnd
  have hqnd : ((indeg.filter (fun p => p.2 = 0)).map Prod.fst).Nodup := by
    have hs1 : List.Sublist (indeg.filter (fun p => decide (p.2 = 0))) indeg :=
      List.filter_sublist _
    exact List.Nodup.sublist (hs1.map Prod.fst) hkeysnd
  have hqsub : ∀ x ∈ (indeg.filter (fun p => p.2 = 0)).map Prod.fst,
      x ∈ E.layerNames := by
    intro x hx
    obtain ⟨p, hp, hfst⟩ := List.mem_map.mp hx
    have hp2 : p ∈ indeg := (List.mem_filter.mp hp).1
    rw [← hki, ← hfst]
    exact List.mem_map.mpr ⟨p, hp2, rfl⟩
  have hqready : ∀ x ∈ (indeg.filter (fun p => p.2 = 0)).map Prod.fst,
      ∀ d ∈ E.depsOf x, d ∈ ([] : List String) := by
    intro x hx d hd
    obtain ⟨p, hp, hfst⟩ := List.mem_map.mp hx
    obtain ⟨hp2, hp0⟩ := List.mem_filter.mp hp
    have hp0b : p.2 = 0 := by simpa using hp0
    have hlk : mapLookup indeg p.1 = some p.2 :=
      mapLookup_of_mem_nodup indeg hkeysnd p.1 p.2 hp2
    rw [hfst, hp0b] at hlk
    have h0 := hlook_char x 0 hlk
    rw [hcountP_full x] at h0
    have hnil : E.depsOf x = [] := List.length_eq_zero.mp h0.symm
    rw [hnil] at hd
    cases hd
  obtain ⟨res, hkahn, hrnd, hrsub, hrsort⟩ := kahnLoop_invariant E.layerNames graph
    E.depsOf hkg hgcount hgmem (E.layerNames.length + 1) indeg
    ((indeg.filter (fun p => p.2 = 0)).map Prod.fst) []
    hki hlook_char (by simpa using hqnd)
    (by intro x hx; exact hqsub x (by simpa using hx))
    hqready
    (by intro k x hk; simp at hk)
    (by simp only [List.length_nil, Nat.add_zero]; omega)
  refine ⟨res, hrnd, hrsub, hrsort, ?_⟩
  rw [topological_sort_eq, hID]
  show (match kahnLoop graph (E.layerNames.length + 1) indeg
      ((indeg.filter (fun p => p.2 = 0)).map Prod.fst) [] with
    | .err e => Outcome.err e
    | .panicked m => Outcome.panicked m
    | .ok result =>
      if result.length ≠ E.layerNames.length then
        Outcome.err (Err.ConfigError "Circular dependency detected in layers")
      else
        match E.init_layer with
        | some init_name =>
            Outcome.ok (init_name :: result.filter (fun n => n ≠ init_name))
        | none => Outcome.ok result) = _
  rw [hkahn]

/-- Registering a list of layers whose names collide (with each other or
with already-registered names) fails with `LayerAlreadyExists`. -/
theorem registerLayers_dup_error :
    ∀ (ls : List Layer) (E : Engine),
      (E.layers.map Prod.fst).Nodup →
      ¬ ((E.layers.map Prod.fst ++ ls.map Layer.name).Nodup) →
      ∃ n, registerLayers ls E = .error (.LayerAlreadyExists n) := by
  intro ls
  induction ls with
  | nil =>
    intro E hnd h
    exact absurd (by simpa using hnd) h
  | cons l rest ih =>
    intro E hnd h
    rw [List.map_cons] at h
    by_cases hmem : (mapLookup E.layers l.name).isSome
    · refine ⟨l.name, ?_⟩
      have hreg : E.register_layer l = .error (.LayerAlreadyExists l.name) := by
        unfold Engine.register_layer
        rw [if_pos hmem]
      simp only [registerLayers, hreg]
    · have hnotmem : l.name ∉ E.layers.map Prod.fst := fun hm =>
        hmem ((mapLookup_isSome_iff _ _).mpr hm)
      have hreg : E.register_layer l =
          .ok { E with layers := E.layers ++ [(l.name, l)] } := by
        unfold Engine.register_layer
        rw [if_neg hmem]
      have hkE2 : ({ E with layers := E.layers ++ [(l.name, l)] } : Engine).layers.map
          Prod.fst = E.layers.map Prod.fst ++ [l.name] := by simp
      have hnd2 : (({ E with layers := E.layers ++ [(l.name, l)] } : Engine).layers.map
          Prod.fst).Nodup := by
        rw [hkE2, List.nodup_append]
        refine ⟨hnd, List.nodup_singleton _, ?_⟩
        intro a ha hb
        rw [List.mem_singleton] at hb
        exact hnotmem (hb ▸ ha)
      have h2 : ¬ ((({ E with layers := E.layers ++ [(l.name, l)] } : Engine).layers.map
          Prod.fst ++ rest.map Layer.name).Nodup) := by
        rw [hkE2]
        intro hnodup
        apply h
        rw [List.append_assoc, List.singleton_append] at hnodup
        exact hnodup
      obtain ⟨n, hrec⟩ := ih _ hnd2 h2
      refine ⟨n, ?_⟩
      simp only [registerLayers, hreg]
      exact hrec

/-- Registering a duplicate-free list of fresh layer names succeeds and
appends exactly those bindings, leaving everything else unchanged. -/
theorem registerLayers_ok :
    ∀ (ls : List Layer) (E : Engine),
      (E.layers.map Prod.fst ++ ls.map Layer.name).Nodup →
      ∃ E2, registerLayers ls E = .ok E2 ∧
        E2.layers.map Prod.fst = E.layers.map Prod.fst ++ ls.map Layer.name ∧
        E2.slices = E.slices ∧ E2.dependencies = E.dependencies ∧
        E2.init_layer = E.init_layer ∧ E2.config = E.config := by
  intro ls
  induction ls with
  | nil =>
    intro E _
    exact ⟨E, rfl, by simp, rfl, rfl, rfl, rfl⟩
  | cons l rest ih =>
    intro E hnd
    rw [List.map_cons] at hnd
    have hnotmem : l.name ∉ E.layers.map Prod.fst := by
      intro hm
      have := (List.nodup_append.mp hnd).2.2 hm (List.mem_cons_self _ _)
      exact this
    have hmem : ¬ (mapLookup E.layers l.name).isSome := fun hs =>
      hnotmem ((mapLookup_isSome_iff _ _).mp hs)
    have hreg : E.register_layer l =
        .ok { E with layers := E.layers ++ [(l.name, l)] } := by
      unfold Engine.register_layer
      rw [if_neg hmem]
    have hkE2 : ({ E with layers := E.layers ++ [(l.name, l)] } : Engine).layers.map
        Prod.fst = E.layers.map Prod.fst ++ [l.name] := by simp
    have hnd2 : (({ E with layers := E.layers ++ [(l.name, l)] } : Engine).layers.map
        Prod.fst ++ rest.map Layer.name).Nodup := by
      rw [hkE2, List.append_assoc, List.singleton_append]
      exact hnd
    obtain ⟨E2, hrec, hk2, hs2, hd2, hi2, hc2⟩ := ih _ hnd2
    refine ⟨E2, ?_, ?_, hs2, hd2, hi2, hc2⟩
    · simp only [registerLayers, hreg]
      exact hrec
    · rw [hk2, hkE2, List.append_assoc, List.singleton_append, List.map_cons]

/-! ### C9: batching transparency -/

/-- Engine behaviour that ignores the configuration is unchanged by a
configuration update. -/
theorem topological_sort_config (E : Engine) (c : EngineConfig) :
    ({ E with config := c } : Engine).topological_sort = E.topological_sort := rfl

/-- Wave scans depend only on the dependency map. -/
theorem waveOf_congr (E1 E2 : Engine) (h : E1.dependencies = E2.dependencies)
    (slice : Slice) (remaining completed : List String) :
    E1.waveOf slice remaining completed = E2.waveOf slice remaining completed := by
  unfold Engine.waveOf Engine.depsSatisfied
  rw [h]

/-- The wave loop depends only on the dependency map. -/
theorem wavesLoop_congr (E1 E2 : Engine) (h : E1.dependencies = E2.dependencies)
    (slice : Slice) :
    ∀ (fuel : Nat) (remaining completed : List String),
      E1.wavesLoop slice fuel remaining completed =
        E2.wavesLoop slice fuel remaining completed := by
  intro fuel
  induction fuel with
  | zero => intro remaining completed; rfl
  | succ fuel ih =>
    intro remaining completed
    simp only [Engine.wavesLoop, waveOf_congr E1 E2 h slice remaining completed, ih]

/-- Wave computation depends only on the dependency map. -/
theorem compute_method_waves_congr (E1 E2 : Engine)
    (h : E1.dependencies = E2.dependencies) (slice : Slice) (order : List String) :
    E1.compute_method_waves slice order = E2.compute_method_waves slice order := by
  unfold Engine.compute_method_waves
  exact wavesLoop_congr E1 E2 h slice _ _ _

/-- Method execution depends only on the layer registry. -/
theorem execute_method_congr (E1 E2 : Engine) (h : E1.layers = E2.layers)
    (slice : Slice) (layer method : String) (ctx : Ctx) :
    E1.execute_method slice layer method ctx = E2.execute_method slice layer method ctx := by
  unfold Engine.execute_method
  rw [h]

/-- Observed method execution depends only on the layer registry. -/
theorem observe_execute_method_congr (E1 E2 : Engine) (h : E1.layers = E2.layers)
    (slice : Slice) (layer method : String) (ctx : Ctx) :
    E1.observe_execute_method slice layer method ctx =
      E2.observe_execute_method slice layer method ctx := by
  unfold Engine.observe_execute_method
  rw [execute_method_congr E1 E2 h]

/-- Slice execution depends only on the dependency map and the layer
registry. -/
theorem execute_slice_congr (E1 E2 : Engine)
    (hd : E1.dependencies = E2.dependencies) (hl : E1.layers = E2.layers)
    (slice : Slice) (order : List String) (use_observer : Bool) :
    E1.execute_slice slice order use_observer = E2.execute_slice slice order use_observer := by
  unfold Engine.execute_slice
  rw [compute_method_waves_congr E1 E2 hd]
  cases E2.compute_method_waves slice order with
  | error e => rfl
  | ok waves =>
    simp only [execute_method_congr E1 E2 hl, observe_execute_method_congr E1 E2 hl]

/-- Batch execution depends only on the dependency map, the layer registry
and the chunk size. -/
theorem execute_batch_silent_congr (E1 E2 : Engine)
    (hd : E1.dependencies = E2.dependencies) (hl : E1.layers = E2.layers)
    (hc : E1.config.chunk_size = E2.config.chunk_size)
    (slices : List Slice) (order : List String) (use_observer : Bool) :
    E1.execute_batch_silent slices order use_observer =
      E2.execute_batch_silent slices order use_observer := by
  unfold Engine.execute_batch_silent
  dsimp only
  rw [hc]
  simp only [execute_slice_congr E1 E2 hd hl]

/-- Folding batch-collected maps looks up like one collected map over the
concatenation: the last binding of a key wins either way. -/
theorem mapLookup_foldl_extend_collect {κ α : Type _} [DecidableEq κ] :
    ∀ (css : List (List (κ × α))) (acc : List (κ × α)) (k : κ),
      mapLookup (css.foldl (fun a c => mapExtend a (collectMap c)) acc) k =
        match mapLookup css.flatten.reverse k with
        | some v => some v
        | none => mapLookup acc k := by
  intro css
  induction css with
  | nil => intro acc k; simp [mapLookup]
  | cons c rest ih =>
    intro acc k
    simp only [List.foldl_cons, List.flatten_cons, List.reverse_append, mapLookup_append]
    rw [ih (mapExtend acc (collectMap c)) k,
      mapLookup_mapExtend (collectMap c) acc k,
      mapLookup_reverse_of_nodup (collectMap c) (collectMap_keys_nodup c) k,
      mapLookup_collectMap c k]
    cases mapLookup rest.flatten.reverse k <;> cases mapLookup c.reverse k <;> rfl

/-- **C9.**  Batching is transparent: for every engine, slice set and
positive batch size `B`, running with the slices partitioned into batches
of size `B` and running with batching disabled either both abort with the
same panic (a misconfigured graph) or both succeed with `RunResults` of
identical content — the same outcome under every slice name. -/
theorem c9_batching_transparent (E : Engine) (b : Nat) (hb : 0 < b)
    (use_observer : Bool) :
    (∃ m, ({ E with config := { E.config with batch_size := some b } } :
            Engine).run_silent use_observer = .panicked m ∧
          ({ E with config := { E.config with batch_size := none } } :
            Engine).run_silent use_observer = .panicked m) ∨
    (∃ r1 r2, ({ E with config := { E.config with batch_size := some b } } :
            Engine).run_silent use_observer = .ok r1 ∧
          ({ E with config := { E.config with batch_size := none } } :
            Engine).run_silent use_observer = .ok r2 ∧
          ∀ name, mapLookup r1 name = mapLookup r2 name) := by
  cases ht : E.topological_sort with
  | err e =>
    left
    refine ⟨"Engine misconfigured: " ++ e.display, ?_, ?_⟩ <;>
      · unfold Engine.run_silent
        rw [topological_sort_config, ht]
  | panicked m =>
    left
    refine ⟨m, ?_, ?_⟩ <;>
      · unfold Engine.run_silent
        rw [topological_sort_config, ht]
  | ok order =>
    right
    have hb0 : ¬ b = 0 := by omega
    refine ⟨(chunks b E.slices).foldl
        (fun all_results batch =>
          mapExtend all_results (E.execute_batch_silent batch order use_observer)) [],
      E.execute_batch_silent E.slices order use_observer, ?_, ?_, ?_⟩
    · unfold Engine.run_silent
      rw [topological_sort_config, ht]
      dsimp only
      simp only [if_neg hb0]
      simp only [execute_batch_silent_congr
        ({ E with config := { E.config with batch_size := some b } } : Engine) E
        rfl rfl rfl]
    · unfold Engine.run_silent
      rw [topological_sort_config, ht]
      dsimp only
      simp only [execute_batch_silent_congr
        ({ E with config := { E.config with batch_size := none } } : Engine) E
        rfl rfl rfl]
    · intro name
      have hfold : (chunks b E.slices).foldl
          (fun all_results batch =>
            mapExtend all_results (E.execute_batch_silent batch order use_observer)) [] =
          ((chunks b E.slices).map
            (List.map (fun s => (s.name, E.execute_slice s order use_observer)))).foldl
            (fun a c => mapExtend a (collectMap c)) [] := by
        rw [List.foldl_map]
        simp only [execute_batch_silent_pairs]
      rw [hfold, mapLookup_foldl_extend_collect, execute_batch_silent_pairs,
        mapLookup_collectMap]
      rw [show ((chunks b E.slices).map
          (List.map (fun s => (s.name, E.execute_slice s order use_observer)))).flatten =
          E.slices.map (fun s => (s.name, E.execute_slice s order use_observer)) from by
        rw [← List.map_flatten]
        rw [chunks, chunksGo_join b hb E.slices.length E.slices le_rfl]]
      cases mapLookup (E.slices.map
        (fun s => (s.name, E.execute_slice s order use_observer))).reverse name <;> rfl

/-- Witness for C9 at a concrete engine and batch size 2. -/
theorem c9_witness :
    (∃ m, ({ failDemoEngine boomFn okFn3 with
          config := { (failDemoEngine boomFn okFn3).config with batch_size := some 2 } } :
            Engine).run_silent false = .panicked m ∧
          ({ failDemoEngine boomFn okFn3 with
          config := { (failDemoEngine boomFn okFn3).config with batch_size := none } } :
            Engine).run_silent false = .panicked m) ∨
    (∃ r1 r2, ({ failDemoEngine boomFn okFn3 with
          config := { (failDemoEngine boomFn okFn3).config with batch_size := some 2 } } :
            Engine).run_silent false = .ok r1 ∧
          ({ failDemoEngine boomFn okFn3 with
          config := { (failDemoEngine boomFn okFn3).config with batch_size := none } } :
            Engine).run_silent false = .ok r2 ∧
          ∀ name, mapLookup r1 name = mapLookup r2 name) :=
  c9_batching_transparent (failDemoEngine boomFn okFn3) 2 (by decide) false

/-! ### C10: duplicate slice names -/

/-- **C10.**  When two registered slices share a name, a run's `RunResults`
(a map keyed by slice name) holds exactly one entry per name — every name's
entry is the outcome of the *last* slice processed under that name — so the
reported total slice count is strictly less than the number of registered
slices.  (The `batch_size = none` hypothesis fixes the single-batch path the
claim's cited code takes; `HashMap` key sets are duplicate-free by
representation.) -/
theorem c10_duplicate_slice_name_overwrites (E : Engine) (use_observer : Bool)
    (results : RunResults)
    (hbatch : E.config.batch_size = none)
    (hrun : E.run_silent use_observer = .ok results)
    (i j : Nat) (hij : i < j) (hj : j < E.slices.length)
    (hname : (E.slices.get ⟨i, Nat.lt_trans hij hj⟩).name = (E.slices.get ⟨j, hj⟩).name) :
    (results.map Prod.fst).Nodup ∧
    results.total_slices < E.slices.length ∧
    (∀ execution_order, E.topological_sort = .ok execution_order →
      ∀ name, mapLookup results name =
        mapLookup ((E.slices.map
          (fun s => (s.name, E.execute_slice s execution_order use_observer))).reverse)
          name) := by
  unfold Engine.run_silent at hrun
  cases ht : E.topological_sort with
  | err e => rw [ht] at hrun; exact Outcome.noConfusion hrun
  | panicked m => rw [ht] at hrun; exact Outcome.noConfusion hrun
  | ok order =>
    rw [ht, hbatch] at hrun
    have hres : results = E.execute_batch_silent E.slices order use_observer :=
      (Outcome.ok.inj hrun).symm
    rw [execute_batch_silent_pairs] at hres
    have hnames : (E.slices.map
        (fun s => (s.name, E.execute_slice s order use_observer))).map Prod.fst =
        E.slices.map (fun s => s.name) := by
      rw [List.map_map]; rfl
    have hnotnodup : ¬ (E.slices.map (fun s => s.name)).Nodup := by
      intro hnd
      have hinj := List.nodup_iff_injective_get.mp hnd
      have hlen : E.slices.length = (E.slices.map (fun s => s.name)).length := by simp
      have h1 : (E.slices.map (fun s => s.name)).get ⟨i, by simpa using Nat.lt_trans hij hj⟩ =
          (E.slices.map (fun s => s.name)).get ⟨j, by simpa using hj⟩ := by
        simp only [List.get_eq_getElem, List.getElem_map]
        exact hname
      have h2 := hinj h1
      have : i = j := by simpa using congrArg Fin.val h2
      omega
    refine ⟨?_, ?_, ?_⟩
    · rw [hres]; exact collectMap_keys_nodup _
    · have hnodup := collectMap_keys_nodup (E.slices.map
        (fun s => (s.name, E.execute_slice s order use_observer)))
      have hsub : ((collectMap (E.slices.map
          (fun s => (s.name, E.execute_slice s order use_observer)))).map Prod.fst).toFinset ⊆
          ((E.slices.map (fun s => (s.name, E.execute_slice s order use_observer))).map
            Prod.fst).toFinset := by
        intro x hx
        rw [List.mem_toFinset] at hx ⊢
        rcases mapExtend_keys_subset _ [] x hx with h | h
        · cases h
        · exact h
      calc results.total_slices
          = ((collectMap (E.slices.map
              (fun s => (s.name, E.execute_slice s order use_observer)))).map
              Prod.fst).length := by
            rw [hres]; simp [RunResults.total_slices]
        _ = ((collectMap (E.slices.map
              (fun s => (s.name, E.execute_slice s order use_observer)))).map
              Prod.fst).toFinset.card := (List.toFinset_card_of_nodup hnodup).symm
        _ ≤ ((E.slices.map (fun s => (s.name, E.execute_slice s order use_observer))).map
              Prod.fst).toFinset.card := Finset.card_le_card hsub
        _ < ((E.slices.map (fun s => (s.name, E.execute_slice s order use_observer))).map
              Prod.fst).length :=
            toFinset_card_lt_of_not_nodup _ (by rw [hnames]; exact hnotnodup)
        _ = E.slices.length := by simp
    · intro execution_order hord name
      have : execution_order = order := (Outcome.ok.inj hord).symm
      subst this
      rw [hres]
      exact mapLookup_collectMap _ name

/-- Witness for C10: `dupSliceDemoEngine` registers two slices named `"s"`;
the run reports one entry (fewer than the two registered), holding the
later slice's outcome. -/
theorem c10_witness :
    (dupDemoResults.map Prod.fst).Nodup ∧
    dupDemoResults.total_slices < dupSliceDemoEngine.slices.length ∧
    (∀ execution_order, dupSliceDemoEngine.topological_sort = .ok execution_order →
      ∀ name, mapLookup dupDemoResults name =
        mapLookup ((dupSliceDemoEngine.slices.map
          (fun s => (s.name, dupSliceDemoEngine.execute_slice s execution_order false))).reverse)
          name) :=
  c10_duplicate_slice_name_overwrites dupSliceDemoEngine false dupDemoResults rfl rfl
    0 1 (by decide) (by decide) rfl

/-! ### C2: wave shapes -/

/-- **C2** (amended).  (a) For a slice invoking at least one registered
layer, each with at least one method, where *no invoked layer has any
recorded dependency*, wave computation produces exactly one wave holding
exactly the slice's (layer, method) pairs.  (b) For a linear chain
`A → B → C` (`C` depends on `B`, `B` depends on `A`) and a slice invoking
exactly those three layers (each with at least one method), wave
computation produces exactly three waves in the order `A`, `B`, `C`, one
layer per wave.  (The original "no dependency edges among them" is
strengthened to "no recorded dependencies": an invoked layer depending on a
layer the slice does not invoke makes wave computation fail — see the
counterexample.) -/
theorem c2_wave_computation (E : Engine) (slice : Slice)
    (execution_order : List String) :
    ((execution_order.filter (fun l => slice.has_layer l)) ≠ [] →
     (∀ l ∈ execution_order.filter (fun l => slice.has_layer l),
        (mapLookup E.dependencies l).getD [] = []) →
     (∀ l ∈ execution_order.filter (fun l => slice.has_layer l),
        ∃ ms, slice.get_layer_methods l = .ok ms ∧ ms ≠ []) →
     ∃ wave, E.compute_method_waves slice execution_order = .ok [wave] ∧
       ∀ (l m : String), (l, m) ∈ wave ↔
         (l ∈ execution_order.filter (fun l => slice.has_layer l) ∧
          ∃ ms, slice.get_layer_methods l = .ok ms ∧ m ∈ ms)) ∧
    (∀ (A B C : String) (msA msB msC : List String),
      A ≠ B → A ≠ C → B ≠ C →
      execution_order.filter (fun l => slice.has_layer l) = [A, B, C] →
      (mapLookup E.dependencies A).getD [] = [] →
      mapLookup E.dependencies B = some [A] →
      mapLookup E.dependencies C = some [B] →
      slice.get_layer_methods A = .ok msA → msA ≠ [] →
      slice.get_layer_methods B = .ok msB → msB ≠ [] →
      slice.get_layer_methods C = .ok msC → msC ≠ [] →
      E.compute_method_waves slice execution_order =
        .ok [msA.map (fun m => (A, m)), msB.map (fun m => (B, m)),
             msC.map (fun m => (C, m))]) := by
  constructor
  · intro hne hdeps hmeth
    refine ⟨E.waveOf slice (execution_order.filter (fun l => slice.has_layer l)) [],
      ?_, ?_⟩
    · obtain ⟨l0, hl0⟩ := List.exists_mem_of_ne_nil _ hne
      obtain ⟨ms, hms, hmsne⟩ := hmeth l0 hl0
      obtain ⟨m0, hm0⟩ := List.exists_mem_of_ne_nil _ hmsne
      have hw : (l0, m0) ∈
          E.waveOf slice (execution_order.filter (fun l => slice.has_layer l)) [] :=
        (E.waveOf_mem slice _ [] (l0, m0)).mpr
          ⟨hl0, E.depsSatisfied_of_no_deps l0 (hdeps l0 hl0) [], ms, hms, hm0⟩
      have hwne : E.waveOf slice
          (execution_order.filter (fun l => slice.has_layer l)) [] ≠ [] := by
        intro h; rw [h] at hw; cases hw
      have hrem : (execution_order.filter (fun l => slice.has_layer l)).filter
          (fun l => !((E.waveOf slice
            (execution_order.filter (fun l => slice.has_layer l)) []).map
              Prod.fst).contains l) = [] := by
        rw [List.filter_eq_nil_iff]
        intro l hl
        obtain ⟨ms', hms', hmsne'⟩ := hmeth l hl
        obtain ⟨m', hm'⟩ := List.exists_mem_of_ne_nil _ hmsne'
        have hlw : (l, m') ∈ E.waveOf slice
            (execution_order.filter (fun l => slice.has_layer l)) [] :=
          (E.waveOf_mem slice _ [] (l, m')).mpr
            ⟨hl, E.depsSatisfied_of_no_deps l (hdeps l hl) [], ms', hms', hm'⟩
        have : l ∈ (E.waveOf slice
            (execution_order.filter (fun l => slice.has_layer l)) []).map Prod.fst :=
          List.mem_map_of_mem Prod.fst hlw
        simp [List.contains, List.elem_eq_mem, this]
      unfold Engine.compute_method_waves
      rw [Engine.wavesLoop_step E slice _ _ _ hne hwne, hrem, Engine.wavesLoop_nil]
    · intro l m
      rw [E.waveOf_mem slice _ [] (l, m)]
      constructor
      · rintro ⟨h1, _, h3⟩; exact ⟨h1, h3⟩
      · rintro ⟨h1, h3⟩
        exact ⟨h1, E.depsSatisfied_of_no_deps l (hdeps l h1) [], h3⟩
  · intro A B C msA msB msC hAB hAC hBC hparts hdA hdB hdC hmA hneA hmB hneB hmC hneC
    obtain ⟨a0, ha0⟩ := List.exists_mem_of_ne_nil _ hneA
    obtain ⟨b0, hb0⟩ := List.exists_mem_of_ne_nil _ hneB
    obtain ⟨c0, hc0⟩ := List.exists_mem_of_ne_nil _ hneC
    have hcontains_false : ∀ (l : List String) (a : String), a ∉ l →
        l.contains a = false := by
      intro l a ha
      exact Bool.eq_false_iff.mpr (fun hc => ha ((list_contains_iff l a).mp hc))
    have hsatB1 : E.depsSatisfied [] B = false := by
      simp only [Engine.depsSatisfied, hdB, List.all_cons, List.all_nil, Bool.and_true]
      exact hcontains_false [] A (by simp)
    have hsatC1 : E.depsSatisfied [] C = false := by
      simp only [Engine.depsSatisfied, hdC, List.all_cons, List.all_nil, Bool.and_true]
      exact hcontains_false [] B (by simp)
    have hw1 : E.waveOf slice [A, B, C] [] = msA.map (fun m => (A, m)) := by
      rw [Engine.waveOf_eq]
      simp [List.flatMap_cons, E.depsSatisfied_of_no_deps A hdA [], hsatB1, hsatC1, hmA]
    have hw1fst : (msA.map (fun m => (A, m))).map Prod.fst = msA.map (fun _ => A) := by
      simp [List.map_map]
    have hAin1 : A ∈ msA.map (fun _ => A) := List.mem_map.mpr ⟨a0, ha0, rfl⟩
    have hBnot1 : B ∉ msA.map (fun _ => A) := by
      intro h; rcases List.mem_map.mp h with ⟨_, _, he⟩; exact hAB he
    have hCnot1 : C ∉ msA.map (fun _ => A) := by
      intro h; rcases List.mem_map.mp h with ⟨_, _, he⟩; exact hAC he
    have hpA1 : (!((msA.map (fun m => (A, m))).map Prod.fst).contains A) = false := by
      rw [hw1fst, (list_contains_iff _ _).mpr hAin1]; rfl
    have hpB1 : (!((msA.map (fun m => (A, m))).map Prod.fst).contains B) = true := by
      rw [hw1fst, hcontains_false _ B hBnot1]; rfl
    have hpC1 : (!((msA.map (fun m => (A, m))).map Prod.fst).contains C) = true := by
      rw [hw1fst, hcontains_false _ C hCnot1]; rfl
    have hrem1 : ([A, B, C].filter
        (fun l => !((msA.map (fun m => (A, m))).map Prod.fst).contains l)) = [B, C] := by
      simp only [List.filter_cons, hpA1, hpB1, hpC1, List.filter_nil]
      rfl
    have hmemA1 : A ∈ ([] : List String) ++ (msA.map (fun m => (A, m))).map Prod.fst := by
      rw [List.nil_append, hw1fst]; exact hAin1
    have hnotB1 : B ∉ ([] : List String) ++ (msA.map (fun m => (A, m))).map Prod.fst := by
      rw [List.nil_append, hw1fst]; exact hBnot1
    have hsatB2 : E.depsSatisfied
        (([] : List String) ++ (msA.map (fun m => (A, m))).map Prod.fst) B = true := by
      simp only [Engine.depsSatisfied, hdB, List.all_cons, List.all_nil, Bool.and_true]
      exact (list_contains_iff _ _).mpr hmemA1
    have hsatC2 : E.depsSatisfied
        (([] : List String) ++ (msA.map (fun m => (A, m))).map Prod.fst) C = false := by
      simp only [Engine.depsSatisfied, hdC, List.all_cons, List.all_nil, Bool.and_true]
      exact hcontains_false _ B hnotB1
    have hw2 : E.waveOf slice [B, C]
        (([] : List String) ++ (msA.map (fun m => (A, m))).map Prod.fst) =
        msB.map (fun m => (B, m)) := by
      rw [Engine.waveOf_eq]
      simp only [List.flatMap_cons, List.flatMap_nil, hsatB2, hsatC2, hmB,
        eq_self_iff_true, Bool.false_eq_true, if_true, if_false, List.append_nil]
    have hw2fst : (msB.map (fun m => (B, m))).map Prod.fst = msB.map (fun _ => B) := by
      simp [List.map_map]
    have hBin2 : B ∈ msB.map (fun _ => B) := List.mem_map.mpr ⟨b0, hb0, rfl⟩
    have hCnot2 : C ∉ msB.map (fun _ => B) := by
      intro h; rcases List.mem_map.mp h with ⟨_, _, he⟩; exact hBC he
    have hpB2 : (!((msB.map (fun m => (B, m))).map Prod.fst).contains B) = false := by
      rw [hw2fst, (list_contains_iff _ _).mpr hBin2]; rfl
    have hpC2 : (!((msB.map (fun m => (B, m))).map Prod.fst).contains C) = true := by
      rw [hw2fst, hcontains_false _ C hCnot2]; rfl
    have hrem2 : ([B, C].filter
        (fun l => !((msB.map (fun m => (B, m))).map Prod.fst).contains l)) = [C] := by
      simp only [List.filter_cons, hpB2, hpC2, List.filter_nil]
      rfl
    have hmemB2 : B ∈ (([] : List String) ++ (msA.map (fun m => (A, m))).map Prod.fst) ++
        (msB.map (fun m => (B, m))).map Prod.fst :=
      List.mem_append.mpr (Or.inr (by rw [hw2fst]; exact hBin2))
    have hsatC3 : E.depsSatisfied
        ((([] : List String) ++ (msA.map (fun m => (A, m))).map Prod.fst) ++
          (msB.map (fun m => (B, m))).map Prod.fst) C = true := by
      simp only [Engine.depsSatisfied, hdC, List.all_cons, List.all_nil, Bool.and_true]
      exact (list_contains_iff _ _).mpr hmemB2
    have hw3 : E.waveOf slice [C]
        ((([] : List String) ++ (msA.map (fun m => (A, m))).map Prod.fst) ++
          (msB.map (fun m => (B, m))).map Prod.fst) = msC.map (fun m => (C, m)) := by
      rw [Engine.waveOf_eq]
      simp only [List.flatMap_cons, List.flatMap_nil, hsatC3, hmC,
        eq_self_iff_true, Bool.false_eq_true, if_true, if_false, List.append_nil]
    have hw3fst : (msC.map (fun m => (C, m))).map Prod.fst = msC.map (fun _ => C) := by
      simp [List.map_map]
    have hCin3 : C ∈ msC.map (fun _ => C) := List.mem_map.mpr ⟨c0, hc0, rfl⟩
    have hpC3 : (!((msC.map (fun m => (C, m))).map Prod.fst).contains C) = false := by
      rw [hw3fst, (list_contains_iff _ _).mpr hCin3]; rfl
    have hrem3 : ([C].filter
        (fun l => !((msC.map (fun m => (C, m))).map Prod.fst).contains l)) = [] := by
      simp only [List.filter_cons, hpC3, List.filter_nil]
      rfl
    have hwne1 : E.waveOf slice [A, B, C] [] ≠ [] := by
      rw [hw1]; simp [hneA]
    have hwne2 : E.waveOf slice [B, C]
        (([] : List String) ++ (msA.map (fun m => (A, m))).map Prod.fst) ≠ [] := by
      rw [hw2]; simp [hneB]
    have hwne3 : E.waveOf slice [C]
        ((([] : List String) ++ (msA.map (fun m => (A, m))).map Prod.fst) ++
          (msB.map (fun m => (B, m))).map Prod.fst) ≠ [] := by
      rw [hw3]; simp [hneC]
    unfold Engine.compute_method_waves
    rw [hparts]
    rw [Engine.wavesLoop_step E slice _ _ _ (by simp) hwne1]
    rw [hw1, hrem1]
    rw [E.wavesLoop_fuel_irrelevant slice (List.length [A, B, C]) (List.length [B, C] + 1)
      [B, C] _ (by simp) (by simp)]
    rw [Engine.wavesLoop_step E slice _ _ _ (by simp) hwne2]
    rw [hw2, hrem2]
    rw [E.wavesLoop_fuel_irrelevant slice (List.length [B, C]) (List.length [C] + 1)
      [C] _ (by simp) (by simp)]
    rw [Engine.wavesLoop_step E slice _ _ _ (by simp) hwne3]
    rw [hw3, hrem3, Engine.wavesLoop_nil]

/-- **C2 counterexample.**  A slice invoking a single layer `X` (so there is
no dependency edge *among* the invoked layers) where `X` depends on the
uninvoked registered layer `Z`: wave computation fails with a `ConfigError`
instead of producing one wave, so the claim as stated is false. -/
theorem c2_counterexample :
    waveDemoSlice.methods_per_layer.map Prod.fst = ["X"] ∧
    "X" ∉ (mapLookup waveDemoEngine.dependencies "X").getD [] ∧
    waveDemoEngine.topological_sort = .ok ["Z", "X"] ∧
    waveDemoEngine.compute_method_waves waveDemoSlice ["Z", "X"] =
      .error (.ConfigError "Unable to compute method waves") :=
  ⟨rfl, by decide, rfl, rfl⟩

/-- Witness for C2: an engine whose one invoked layer has no dependencies
produces a single wave; the concrete chain `A → B → C` produces exactly
the three singleton waves in order. -/
theorem c2_witness :
    (∃ wave, (failDemoEngine boomFn okFn3).compute_method_waves
        ⟨"s", [("L", [("m1", Value.null), ("m2", Value.null)])]⟩ ["L"] = .ok [wave] ∧
      ∀ (l m : String), (l, m) ∈ wave ↔
        (l ∈ (["L"].filter (fun l =>
            (⟨"s", [("L", [("m1", Value.null), ("m2", Value.null)])]⟩ : Slice).has_layer l)) ∧
         ∃ ms, (⟨"s", [("L", [("m1", Value.null), ("m2", Value.null)])]⟩ :
            Slice).get_layer_methods l = .ok ms ∧ m ∈ ms)) ∧
    chainDemoEngine.compute_method_waves chainDemoSlice ["A", "B", "C"] =
      .ok [[("A", "ma")], [("B", "mb")], [("C", "mc")]] :=
  ⟨(c2_wave_computation (failDemoEngine boomFn okFn3)
      ⟨"s", [("L", [("m1", Value.null), ("m2", Value.null)])]⟩ ["L"]).1
      (by decide) (by decide)
      (by
        intro l hl
        have hl' : l = "L" := by
          have := by simpa using hl
          exact this.1
        subst hl'
        exact ⟨["m1", "m2"], rfl, by decide⟩),
   (c2_wave_computation chainDemoEngine chainDemoSlice ["A", "B", "C"]).2
      "A" "B" "C" ["ma"] ["mb"] ["mc"]
      (by decide) (by decide) (by decide) rfl rfl rfl rfl rfl (by decide) rfl
      (by decide) rfl (by decide)⟩

/-! ### C3: argument resolution and the merge law -/

/-- **C3** (amended).  Argument resolution obeys the merge law: with the
layer default `{a:1,b:2}` and slice override `{b:20,c:3}` the bound function
receives `{a:1,b:20,c:3}`; for arbitrary objects the merged object maps
every key to the override's binding when present and the default's
otherwise (shallow merge); and a *non-null* non-object override is passed
verbatim, ignoring the default (a null override instead selects the
declared default — see the counterexample). -/
theorem c3_argument_merge_law :
    (mergeDemoEngine.execute_method
        (mergeDemoSlice (.object [("b", .number (.Int 20)), ("c", .number (.Int 3))]))
        "L" "m" [] =
      .ok (.object [("a", .number (.Int 1)), ("b", .number (.Int 20)),
                    ("c", .number (.Int 3))])) ∧
    (∀ (def_fields over_fields : List (String × Value)),
        (over_fields.map Prod.fst).Nodup →
        ∀ k, (Engine.merge_args (.object def_fields) (.object over_fields)).get k =
          match (Value.object over_fields).get k with
          | some v => some v
          | none => (Value.object def_fields).get k) ∧
    (∀ (defaults overrides : Value),
        overrides.is_null = false → overrides.isObject = false →
        Engine.merge_args defaults overrides = overrides) ∧
    (mergeDemoEngine.execute_method (mergeDemoSlice (.number (.Int 7))) "L" "m" [] =
      .ok (.number (.Int 7))) := by
  refine ⟨rfl, ?_, ?_, rfl⟩
  · intro def_fields over_fields hnd k
    have hm : Engine.merge_args (.object def_fields) (.object over_fields) =
        .object (mapExtend def_fields over_fields) := rfl
    rw [hm]
    show mapLookup (mapExtend def_fields over_fields) k = _
    rw [mapLookup_mapExtend over_fields def_fields k,
      mapLookup_reverse_of_nodup over_fields hnd k]
    simp only [Value.get]
    cases mapLookup over_fields k <;> rfl
  · intro defaults overrides hnull hobj
    cases overrides with
    | null => simp [Value.is_null] at hnull
    | object fields => simp [Value.isObject] at hobj
    | bool b => cases defaults <;> rfl
    | number n => cases defaults <;> rfl
    | string s => cases defaults <;> rfl
    | array elems => cases defaults <;> rfl

/-- Witness for C3 at concrete objects. -/
theorem c3_witness :
    ((Engine.merge_args (.object [("x", .bool true)]) (.object [("y", .bool false)])).get "y" =
      some (.bool false)) ∧
    Engine.merge_args (.object [("x", .bool true)]) (.string "s") = .string "s" := by
  constructor
  · have h := c3_argument_merge_law.2.1 [("x", .bool true)] [("y", .bool false)]
      (by simp) "y"
    exact h.trans (by rfl)
  · exact c3_argument_merge_law.2.2.1 (.object [("x", .bool true)]) (.string "s") rfl rfl

/-- **C3 counterexample.**  `Value::Null` is not an object, yet a null
override resolves to the layer's declared default (`{a:1,b:2}`), not to the
override verbatim: the claim's unrestricted "non-object override is used
verbatim" is false at a null override. -/
theorem c3_counterexample :
    Value.null.isObject = false ∧
    mergeDemoEngine.execute_method (mergeDemoSlice Value.null) "L" "m" [] =
      .ok (.object [("a", .number (.Int 1)), ("b", .number (.Int 2))]) ∧
    Value.object [("a", .number (.Int 1)), ("b", .number (.Int 2))] ≠ Value.null :=
  ⟨rfl, rfl, by decide⟩

/-! ### C7: error-context wrapping -/

/-- **C7.** Error-context wrapping is never nested: context attachment
(`observe_execute_method`'s `map_err` closure) returns an error that is
already a `MethodExecutionFailed` unchanged; `root_cause` of a wrapped error
equals `root_cause` of the wrapped cause, and `root_cause` always lands on a
non-wrapper error; `message` looks through wrapper layers and returns the
innermost human-readable text. -/
theorem c7_error_context_never_nested :
    (∀ (slice : Slice) (layer method : String) (e : Err),
        e.is_execution_error = true →
        Engine.attachInvocationContext slice layer method e = e) ∧
    (∀ (slice layer method : String) (args : Value) (e : Err),
        (e.with_context slice layer method args).root_cause = e.root_cause) ∧
    (∀ (slice layer method : String) (args : Value) (e : Err),
        (e.with_context slice layer method args).message = e.message) ∧
    (∀ e : Err, (e.root_cause).is_execution_error = false) ∧
    (∀ e : Err, e.message = e.root_cause.message) := by
  refine ⟨?_, ?_, ?_, ?_, ?_⟩
  · intro slice layer method e he
    simp [Engine.attachInvocationContext, he]
  · intro slice layer method args e; rfl
  · intro slice layer method args e; rfl
  · intro e
    induction e with
    | MethodExecutionFailed s l m a cause ih => simpa [Err.root_cause] using ih
    | ExecutionError msg => rfl
    | ConfigError msg => rfl
    | LayerNotFound l => rfl
    | LayerAlreadyExists l => rfl
    | MethodNotFound m l => rfl
    | MethodNotBound m l => rfl
  · intro e
    induction e with
    | MethodExecutionFailed s l m a cause ih => simpa [Err.message, Err.root_cause] using ih
    | ExecutionError msg => rfl
    | ConfigError msg => rfl
    | LayerNotFound l => rfl
    | LayerAlreadyExists l => rfl
    | MethodNotFound m l => rfl
    | MethodNotBound m l => rfl

/-- Witness for C7 at a concrete wrapped error. -/
theorem c7_witness :
    Engine.attachInvocationContext (mergeDemoSlice Value.null) "L" "m"
        (Err.MethodExecutionFailed "s0" "L0" "m0" Value.null (.ExecutionError "boom")) =
      Err.MethodExecutionFailed "s0" "L0" "m0" Value.null (.ExecutionError "boom") :=
  c7_error_context_never_nested.1 (mergeDemoSlice Value.null) "L" "m"
    (Err.MethodExecutionFailed "s0" "L0" "m0" Value.null (.ExecutionError "boom")) rfl

/-- **C1**: for every acyclic dependency graph over the registered layers —
formally, whenever the sort succeeds, which happens exactly when no cycle
is present — the produced ordering places, for every edge "A depends on B",
the layer B strictly before A; and when an initializer layer is designated
(with its implicit edges realized, as `EngineBuilder::build` does), it is
the first element of the ordering.  The layer registry and dependency map
are `HashMap`s, so their key lists are duplicate-free. -/
theorem c1_topological_order_respects_dependencies
    (E : Engine) (order : List String)
    (hLnd : E.layerNames.Nodup)
    (hDnd : (E.dependencies.map Prod.fst).Nodup)
    (hInit : ∀ i, E.init_layer = some i →
      ∀ L ∈ E.layerNames, L ≠ i → i ∈ E.depsOf L)
    (hok : E.topological_sort = .ok order) :
    (∀ A B, B ∈ E.depsOf A → ListBefore order B A) ∧
    (∀ i, E.init_layer = some i → order.head? = some i) := by
  obtain ⟨res, hrnd, hrsub, hcomp, hrsort, hwf, horder⟩ :=
    topological_sort_ok_elim E order hLnd hDnd hok
  have hAkeys : ∀ A B, B ∈ E.depsOf A → A ∈ E.layerNames ∧ B ∈ E.layerNames := by
    intro A B hBA
    have hBA2 : B ∈ (mapLookup E.dependencies A).getD [] := hBA
    cases hd : mapLookup E.dependencies A with
    | none =>
      rw [hd] at hBA2
      simp at hBA2
    | some ds =>
      rw [hd] at hBA2
      have hBds : B ∈ ds := by simpa using hBA2
      have hmem := mem_of_mapLookup E.dependencies A ds hd
      exact ⟨(hwf (A, ds) hmem).1, (hwf (A, ds) hmem).2 B hBds⟩
  have hbefore_res : ∀ A B, B ∈ E.depsOf A → ListBefore res B A := by
    intro A B hBA
    have hAres : A ∈ res := hcomp A (hAkeys A B hBA).1
    obtain ⟨k, hk⟩ := mem_exists_getElem? res A hAres
    obtain ⟨k2, hklt, hk2⟩ := hrsort k A hk B hBA
    exact ⟨k2, k, hklt, hk2, hk⟩
  have hnoself : ∀ A, A ∉ E.depsOf A := by
    intro A hAA
    obtain ⟨i, j, hij, hi, hj⟩ := hbefore_res A A hAA
    have := nodup_getElem?_inj res hrnd hi hj
    omega
  have hdistinct : ∀ A B, B ∈ E.depsOf A → A ∈ E.depsOf B → False := by
    intro A B h1 h2
    obtain ⟨i1, j1, hij1, hi1, hj1⟩ := hbefore_res A B h1
    obtain ⟨i2, j2, hij2, hi2, hj2⟩ := hbefore_res B A h2
    have e1 : i1 = j2 := nodup_getElem?_inj res hrnd hi1 hj2
    have e2 : j1 = i2 := nodup_getElem?_inj res hrnd hj1 hi2
    omega
  constructor
  · intro A B hBA
    cases hInitE : E.init_layer with
    | none =>
      rw [hInitE] at horder
      have horder2 : order = res := horder
      rw [horder2]
      exact hbefore_res A B hBA
    | some i =>
      rw [hInitE] at horder
      have horder2 : order = i :: res.filter (fun n => n ≠ i) := horder
      by_cases hBi : B = i
      · have hAi : A ≠ i := by
          intro hA
          exact hnoself A ((hBi.trans hA.symm) ▸ hBA)
        have hAres : A ∈ res := hcomp A (hAkeys A B hBA).1
        have hAf : A ∈ res.filter (fun n => n ≠ i) :=
          List.mem_filter.mpr ⟨hAres, decide_eq_true hAi⟩
        rw [horder2, hBi]
        exact ListBefore.head _ i A hAf
      · have hAi : A ≠ i := by
          intro hA
          have hBn := (hAkeys A B hBA).2
          have h2 : i ∈ E.depsOf B := hInit i hInitE B hBn hBi
          refine hdistinct A B hBA ?_
          rw [hA]
          exact h2
        have hfB := ListBefore.filter (fun n => decide (n ≠ i)) res B A
          (hbefore_res A B hBA) (decide_eq_true hBi) (decide_eq_true hAi)
        rw [horder2]
        exact ListBefore.cons _ i B A hfB
  · intro i0 hi0
    cases hInitE : E.init_layer with
    | none =>
      rw [hInitE] at hi0
      cases hi0
    | some i =>
      rw [hInitE] at horder hi0
      have horder2 : order = i :: res.filter (fun n => n ≠ i) := horder
      have hii : i = i0 := Option.some.inj hi0
      rw [horder2, hii]
      rfl

/-- The C1 theorem applied to the concrete engine `c1demoEngine`
(initializer `"init"`, `A` depends on `init` and `B`, `B` depends on
`init`): its computed order `["init", "B", "A"]` places each dependency
first and starts with the initializer. -/
theorem c1_witness :
    ListBefore c1demoOrder "B" "A" ∧ ListBefore c1demoOrder "init" "A" ∧
    c1demoOrder.head? = some "init" := by
  have h := c1_topological_order_respects_dependencies c1demoEngine c1demoOrder
    (by decide) (by decide)
    (by
      intro i hi L hL hne
      have hi2 : some "init" = some i := hi
      have hieq : i = "init" := (Option.some.inj hi2).symm
      subst hieq
      have hL2 : L ∈ (["init", "A", "B"] : List String) := hL
      simp at hL2
      rcases hL2 with h1 | h1 | h1
      · exact absurd h1 hne
      · rw [h1]; decide
      · rw [h1]; decide)
    rfl
  exact ⟨h.1 "A" "B" (by decide), h.1 "A" "init" (by decide), h.2 "init" rfl⟩

/-- **C6** (corrected): for every dependency graph containing a cycle (a
nonempty set of layers each depending on another member), the topological
sort fails with the configuration error — but this surfaces at *run* time,
not at construction: `EngineBuilder::build` never runs the sort (see
`c6_counterexample`), and `run_silent` converts the configuration error
into a process panic rather than a reported error. -/
theorem c6_cycle_detection (E : Engine) (S : List String) (u : Bool)
    (hLnd : E.layerNames.Nodup)
    (hDnd : (E.dependencies.map Prod.fst).Nodup)
    (hwf : ∀ p ∈ E.dependencies, p.1 ∈ E.layerNames ∧ ∀ d ∈ p.2, d ∈ E.layerNames)
    (hS : S ≠ [])
    (hcyc : ∀ x ∈ S, ∃ y ∈ S, y ∈ E.depsOf x) :
    E.topological_sort = .err (.ConfigError "Circular dependency detected in layers") ∧
    E.run_silent u = .panicked
      "Engine misconfigured: Configuration error: Circular dependency detected in layers" := by
  obtain ⟨res, hrnd, hrsub, hrsort, heq⟩ := topological_sort_wf_run E hLnd hDnd hwf
  have hSnames : ∀ x ∈ S, x ∈ E.layerNames := by
    intro x hx
    obtain ⟨y, hyS, hyd⟩ := hcyc x hx
    have hyd2 : y ∈ (mapLookup E.dependencies x).getD [] := hyd
    cases hd : mapLookup E.dependencies x with
    | none =>
      rw [hd] at hyd2
      simp at hyd2
    | some ds =>
      exact (hwf (x, ds) (mem_of_mapLookup _ _ _ hd)).1
  have hmiss : ∃ x ∈ S, x ∉ res := by
    by_contra hall
    push_neg at hall
    classical
    have hPex : ∃ k : Nat, ∃ x, x ∈ S ∧ res[k]? = some x := by
      obtain ⟨s0, hs0S⟩ : ∃ s, s ∈ S := by
        cases S with
        | nil => exact absurd rfl hS
        | cons a t => exact ⟨a, List.mem_cons_self _ _⟩
      obtain ⟨k, hk⟩ := mem_exists_getElem? res s0 (hall s0 hs0S)
      exact ⟨k, s0, hs0S, hk⟩
    obtain ⟨x0, hx0S, hx0k⟩ := Nat.find_spec hPex
    obtain ⟨y, hyS, hyd⟩ := hcyc x0 hx0S
    obtain ⟨k2, hk2lt, hk2⟩ := hrsort (Nat.find hPex) x0 hx0k y hyd
    exact Nat.find_min hPex hk2lt ⟨y, hyS, hk2⟩
  have hlen : res.length ≠ E.layerNames.length := by
    intro hEqLen
    obtain ⟨x, hxS, hxr⟩ := hmiss
    have hcomp := mem_of_nodup_subset_full res E.layerNames hrnd hLnd hrsub (by omega)
    exact hxr (hcomp x (hSnames x hxS))
  have htopo : E.topological_sort =
      .err (.ConfigError "Circular dependency detected in layers") := by
    rw [heq, if_pos hlen]
  refine ⟨htopo, ?_⟩
  show Engine.run_silent E u = _
  unfold Engine.run_silent
  rw [htopo]
  rfl

/-- The C6 theorem applied to the concrete cyclic engine
`cycleDemoEngine` (`X` and `Y` depend on each other). -/
theorem c6_witness :
    cycleDemoEngine.topological_sort =
      .err (.ConfigError "Circular dependency detected in layers") ∧
    cycleDemoEngine.run_silent false = .panicked
      "Engine misconfigured: Configuration error: Circular dependency detected in layers" :=
  c6_cycle_detection cycleDemoEngine ["X", "Y"] false (by decide) (by decide)
    (by decide) (by decide) (by decide)

/-- Counterexample to the claim's "engine construction fails": the builder
declaring the cycle builds successfully; the configuration error only
appears when the built engine is run, and then as a process panic. -/
theorem c6_counterexample :
    cycleDemoBuilder.build = .ok cycleDemoEngine ∧
    cycleDemoEngine.run_silent false = .panicked
      "Engine misconfigured: Configuration error: Circular dependency detected in layers" :=
  ⟨rfl, rfl⟩

/-- **C8** (corrected): engine construction rejects duplicate layer names
(`LayerAlreadyExists`) and an unregistered initializer (`LayerNotFound`);
but a declared dependency referencing an unregistered layer is accepted at
construction — `Engine::add_dependency` never validates — and fails only
when the engine is run: an unregistered dependency target panics
`run_silent` through the topological sort's `LayerNotFound`, and an
unregistered dependency source panics inside the sort's `unwrap`. -/
theorem c8_construction_validation (bld : EngineBuilder) :
    (¬ (bld.layers.map Layer.name).Nodup →
      ∃ n, bld.build = .error (.LayerAlreadyExists n)) ∧
    (∀ i, bld.init_layer = some i → (bld.layers.map Layer.name).Nodup →
      i ∉ bld.layers.map Layer.name → bld.build = .error (.LayerNotFound i)) ∧
    (unregDepDemoBuilder.build = .ok unregDepDemoEngine ∧
     unregDepDemoEngine.run_silent false =
       .panicked "Engine misconfigured: Layer 'ghost' not found" ∧
     unregSrcDemoBuilder.build = .ok unregSrcDemoEngine ∧
     unregSrcDemoEngine.run_silent false =
       .panicked "called Option::unwrap on a None value") := by
  refine ⟨?_, ?_, rfl, rfl, rfl, rfl⟩
  · intro hdup
    have hbase : (({ Engine.new with config := bld.config } : Engine).layers.map
        Prod.fst).Nodup := by simp [Engine.new]
    have hnd2 : ¬ ((({ Engine.new with config := bld.config } : Engine).layers.map
        Prod.fst ++ bld.layers.map Layer.name).Nodup) := by
      intro h
      apply hdup
      simpa [Engine.new] using h
    obtain ⟨n, hre⟩ := registerLayers_dup_error bld.layers _ hbase hnd2
    refine ⟨n, ?_⟩
    simp only [EngineBuilder.build, hre]
  · intro i hinit hnd hni
    obtain ⟨E0, hreg, hkeys, _, _, _, _⟩ := registerLayers_ok bld.layers
      { Engine.new with config := bld.config } (by simpa [Engine.new] using hnd)
    have hkeys0 : E0.layers.map Prod.fst = bld.layers.map Layer.name := by
      rw [hkeys]
      simp [Engine.new]
    have hnotmem : ¬ (mapLookup E0.layers i).isSome := by
      intro hs
      apply hni
      rw [← hkeys0]
      exact (mapLookup_isSome_iff _ _).mp hs
    have hset : E0.set_init_layer i = .error (.LayerNotFound i) := by
      unfold Engine.set_init_layer
      rw [if_neg hnotmem]
    simp only [EngineBuilder.build, hreg, hinit, hset]

/-- The C8 theorem's construction-time checks applied to the concrete
builders with a duplicated layer name and with a missing initializer. -/
theorem c8_witness :
    (∃ n, dupLayerDemoBuilder.build = .error (.LayerAlreadyExists n)) ∧
    missingInitDemoBuilder.build = .error (.LayerNotFound "init") :=
  ⟨(c8_construction_validation dupLayerDemoBuilder).1 (by decide),
   (c8_construction_validation missingInitDemoBuilder).2.1 "init" rfl
     (by decide) (by decide)⟩

/-- Counterexample to the claim's "construction fails whenever a declared
dependency references an unregistered layer": both builders with dangling
dependency references build successfully. -/
theorem c8_counterexample :
    unregDepDemoBuilder.build = .ok unregDepDemoEngine ∧
    unregSrcDemoBuilder.build = .ok unregSrcDemoEngine := ⟨rfl, rfl⟩

end Sandl
